import Mathlib

/-!
Verification of the axis-remapping core of `pimsviewer`
(`src/base_frames.py`): the `FramesSequenceND` reader base class, its
get-frame planner (`_make_get_frame`, `_transpose`, `_bundle`, `_drop`)
and the configuration facade (`bundle_axes`, `iter_axes`,
`default_coords`, `__len__`, `get_frame`).

The Python code is shallowly embedded: numpy arrays are modelled by a
shape together with a total data function on (positional) index lists;
Python dicts by ordered association lists; the reader object by an
explicit state record and each property setter by a state-passing
function that also reports the error it would raise.  Calls to the
underlying native reader methods are made observable by threading a
trace (the list of coordinate assignments each native method is invoked
with) through every synthesized get-frame function.
-/

namespace Pims

/-- Axis names (`'t'`, `'c'`, `'y'`, `'x'`, ...). -/
abbrev Axis := String

/-- A full coordinate assignment, one integer per axis: the `**ind`
keyword dictionary that get-frame functions receive.  Modelled as a
total function; axes that were never assigned are irrelevant. -/
abbrev Coords := Axis → Nat

/-! ### Mixed-radix index decomposition (`FramesSequenceND.get_frame`)

`get_frame` computes
`iter_cumsizes = np.append(np.cumprod(iter_sizes[::-1])[-2::-1], 1)` and
`iter_coords = (i // iter_cumsizes) % iter_sizes`. -/

/-- `np.cumprod`: list of running products, `cumprod [a,b,c] = [a,ab,abc]`. -/
def np_cumprod (l : List Nat) : List Nat :=
  (l.scanl (· * ·) 1).tail

/-- `np.append(np.cumprod(iter_sizes[::-1])[-2::-1], 1)`: the Python slice
`[-2::-1]` of a list is its `dropLast` reversed. -/
def iter_cumsizes (iter_sizes : List Nat) : List Nat :=
  ((np_cumprod iter_sizes.reverse).dropLast).reverse ++ [1]

/-- `iter_coords = (i // iter_cumsizes) % iter_sizes` (numpy broadcasting
pairs the two arrays elementwise; with no iteration axes the result is
empty). -/
def iterDigits (iter_sizes : List Nat) (i : Nat) : List Nat :=
  List.zipWith (fun c s => (i / c) % s) (iter_cumsizes iter_sizes) iter_sizes

/-- Re-flattening mixed-radix coordinates: the digit of axis `k` weighs
the product of the sizes of all later (faster-varying) axes. -/
def recompose : List Nat → List Nat → Nat
  | s :: srest, c :: crest => c * srest.prod + recompose srest crest
  | _, _ => 0

theorem scanl_mul_append_single (bs : List Nat) (a : Nat) :
    ∀ acc : Nat, List.scanl (· * ·) acc (bs ++ [a]) =
      List.scanl (· * ·) acc bs ++ [acc * bs.prod * a] := by
  induction bs with
  | nil => intro acc; simp [List.scanl]
  | cons b bt ih =>
    intro acc
    simp only [List.cons_append, List.scanl, List.append_eq]
    rw [ih (acc * b)]
    simp [List.prod_cons, Nat.mul_assoc]

theorem np_cumprod_append_last (l : List Nat) (a : Nat) :
    np_cumprod (l ++ [a]) = np_cumprod l ++ [l.prod * a] := by
  unfold np_cumprod
  cases l with
  | nil => simp [List.scanl]
  | cons b bt =>
    simp only [List.cons_append, List.scanl, List.tail_cons, List.append_eq]
    rw [scanl_mul_append_single bt a (1 * b)]
    simp [List.prod_cons, Nat.mul_assoc]

theorem iter_cumsizes_nil : iter_cumsizes [] = [1] := by
  simp [iter_cumsizes, np_cumprod, List.scanl]

theorem np_cumprod_reverse_rev (a : Nat) (l : List Nat) :
    (np_cumprod ((a :: l).reverse)).reverse =
      (a :: l).prod :: ((np_cumprod ((a :: l).reverse)).dropLast).reverse := by
  have h1 : (a :: l).reverse = l.reverse ++ [a] := by simp
  rw [h1, np_cumprod_append_last]
  simp [List.prod_cons, Nat.mul_comm, List.prod_reverse]

theorem iterDigits_nil (i : Nat) : iterDigits [] i = [] := by
  simp [iterDigits, iter_cumsizes_nil]

theorem iterDigits_cons (s : Nat) (l : List Nat) (i : Nat) :
    iterDigits (s :: l) i = ((i / l.prod) % s) :: iterDigits l i := by
  unfold iterDigits
  cases l with
  | nil =>
    simp [iter_cumsizes, np_cumprod, List.scanl]
  | cons b bs =>
    have hcons : iter_cumsizes (s :: b :: bs) =
        (np_cumprod ((b :: bs).reverse)).reverse ++ [1] := by
      unfold iter_cumsizes
      have : (s :: b :: bs).reverse = (b :: bs).reverse ++ [s] := by simp
      rw [this, np_cumprod_append_last]
      simp
    rw [hcons, np_cumprod_reverse_rev]
    have hdef : iter_cumsizes (b :: bs) =
        ((np_cumprod ((b :: bs).reverse)).dropLast).reverse ++ [1] := rfl
    rw [List.cons_append, List.zipWith_cons_cons, ← hdef]

/-- Each recovered coordinate is `(i / ∏_{j>k} s_j) % s_k`. -/
theorem iterDigits_getD (l : List Nat) (i : Nat) (k : Nat) (hk : k < l.length) :
    (iterDigits l i).getD k 0 = (i / (l.drop (k + 1)).prod) % l.getD k 0 := by
  induction l generalizing k with
  | nil => simp at hk
  | cons s rest ih =>
    rw [iterDigits_cons]
    cases k with
    | zero => simp
    | succ k =>
      simp only [List.getD_cons_succ, List.drop_succ_cons]
      exact ih k (by simpa using hk)

theorem iterDigits_length (l : List Nat) (i : Nat) :
    (iterDigits l i).length = l.length := by
  induction l with
  | nil => simp [iterDigits_nil]
  | cons s rest ih => rw [iterDigits_cons]; simp [ih]

theorem mod_mul_decomp (i P s : Nat) :
    i % (P * s) = (i / P) % s * P + i % P := by
  rcases Nat.eq_zero_or_pos P with h0 | hpos
  · simp [h0]
  · have h1 : i / P % s = i % (P * s) / P := (Nat.mod_mul_right_div_self i P s).symm
    have h2 : i % P = i % (P * s) % P :=
      (Nat.mod_mod_of_dvd i (Dvd.intro s rfl)).symm
    rw [h1, h2]
    have h3 := Nat.div_add_mod (i % (P * s)) P
    have h4 : i % (P * s) / P * P = P * (i % (P * s) / P) := Nat.mul_comm _ _
    omega

/-- The digits of `i` recompose to `i % ∏ sizes`. -/
theorem recompose_iterDigits_mod (l : List Nat) (i : Nat) :
    recompose l (iterDigits l i) = i % l.prod := by
  induction l with
  | nil => simp [iterDigits_nil, recompose, Nat.mod_one]
  | cons s rest ih =>
    rw [iterDigits_cons]
    show (i / rest.prod) % s * rest.prod + recompose rest (iterDigits rest i)
        = i % (s :: rest).prod
    rw [ih, List.prod_cons, Nat.mul_comm s rest.prod, mod_mul_decomp]

/-- Round trip: for a valid flat index the mixed-radix decomposition is
inverted by `recompose`. -/
theorem recompose_iterDigits (l : List Nat) (i : Nat) (hi : i < l.prod) :
    recompose l (iterDigits l i) = i := by
  rw [recompose_iterDigits_mod, Nat.mod_eq_of_lt hi]

/-- Adding a multiple of the full radix does not change the digits. -/
theorem iterDigits_add_multiple (l : List Nat) (a r : Nat) (h : l.prod ∣ a) :
    iterDigits l (a + r) = iterDigits l r := by
  induction l generalizing a with
  | nil => simp [iterDigits_nil]
  | cons u us ih =>
    have hprod : (u :: us).prod = u * us.prod := List.prod_cons
    have hdvd2 : us.prod ∣ a :=
      dvd_trans (dvd_mul_left us.prod u) (by rwa [hprod] at h)
    rw [iterDigits_cons, iterDigits_cons, ih a hdvd2]
    congr 1
    rcases Nat.eq_zero_or_pos us.prod with h0 | hpos
    · obtain ⟨c, hc⟩ := hdvd2
      rw [hc, h0]
      simp
    · obtain ⟨d, hd⟩ := (by rwa [hprod] at h : (u * us.prod) ∣ a)
      have hd2 : a = u * d * us.prod := by rw [hd]; ring
      rw [hd2, Nat.add_comm (u * d * us.prod) r,
        Nat.add_mul_div_right r (u * d) hpos, Nat.mul_comm u d,
        Nat.add_mul_mod_self_right]

/-! ### `itertools.product` (row-major Cartesian product, used by `_bundle`) -/

/-- `itertools.product(*[range(s) for s in shape])` as a list of index
tuples: the first axis varies slowest, the last one fastest. -/
def productList : List Nat → List (List Nat)
  | [] => [[]]
  | s :: rest => (List.range s).flatMap (fun i => (productList rest).map (i :: ·))

theorem flatMap_congr_mem {α β : Type} (l : List α) (f g : α → List β)
    (h : ∀ a ∈ l, f a = g a) : l.flatMap f = l.flatMap g := by
  induction l with
  | nil => rfl
  | cons a t ih =>
    simp only [List.flatMap_cons]
    rw [h a (by simp), ih (fun b hb => h b (by simp [hb]))]

theorem productList_length (l : List Nat) :
    (productList l).length = l.prod := by
  induction l with
  | nil => simp [productList]
  | cons s rest ih =>
    simp only [productList, List.length_flatMap, List.length_map, ih,
      List.prod_cons]
    induction s with
    | zero => simp
    | succ n ihn => rw [List.range_succ]; simp [ihn, ih, Nat.succ_mul]

theorem productList_mem_length (l : List Nat) (t : List Nat)
    (ht : t ∈ productList l) : t.length = l.length := by
  induction l generalizing t with
  | nil => simp [productList] at ht; simp [ht]
  | cons s rest ih =>
    simp only [productList, List.mem_flatMap, List.mem_map] at ht
    obtain ⟨i, _, u, hu, rfl⟩ := ht
    simp [ih u hu]

/-- The `j`-th tuple produced by `itertools.product` is the mixed-radix
decomposition of `j` (last axis fastest): the iteration is row-major. -/
theorem productList_eq_digits (l : List Nat) :
    productList l = (List.range l.prod).map (iterDigits l) := by
  induction l with
  | nil => rfl
  | cons s rest ih =>
    have hsplit : ∀ n : Nat,
        (List.range (n * rest.prod)).map (iterDigits (s :: rest)) =
        (List.range n).flatMap
          (fun q => (List.range rest.prod).map
            (fun r => iterDigits (s :: rest) (q * rest.prod + r))) := by
      intro n
      induction n with
      | zero => simp
      | succ m ihm =>
        rw [Nat.succ_mul, List.range_add, List.range_succ]
        simp only [List.map_append, List.map_map, List.flatMap_append,
          List.flatMap_cons, List.flatMap_nil, List.append_nil, ihm]
        rfl
    rw [List.prod_cons, hsplit s, productList]
    apply flatMap_congr_mem
    intro q hq
    rw [ih, List.map_map]
    apply List.map_congr_left
    intro r hr
    have hrP : r < rest.prod := List.mem_range.mp hr
    have hqs : q < s := List.mem_range.mp hq
    simp only [Function.comp_apply]
    rw [iterDigits_cons,
      iterDigits_add_multiple rest (q * rest.prod) r (Dvd.intro_left q rfl)]
    congr 1
    rcases Nat.eq_zero_or_pos rest.prod with h0 | hpos
    · omega
    · rw [Nat.mul_comm q rest.prod, Nat.mul_add_div hpos, Nat.div_eq_of_lt hrP,
        Nat.add_zero, Nat.mod_eq_of_lt hqs]

/-- Tuples produced by `itertools.product` are pairwise distinct. -/
theorem productList_nodup (l : List Nat) : (productList l).Nodup := by
  rw [productList_eq_digits]
  apply List.Nodup.map_on
  · intro x hx y hy hxy
    have hx2 := List.mem_range.mp hx
    have hy2 := List.mem_range.mp hy
    have := congrArg (recompose l) hxy
    rwa [recompose_iterDigits l x hx2, recompose_iterDigits l y hy2] at this
  · exact List.nodup_range _

/-! ### Stable sorting (`list.sort(key=...)`, `np.argsort`)

Python's `list.sort` is stable; it is modelled by a stable insertion
sort parametrised by a boolean comparison. -/

/-- Insert `a` before the first element `b` with `le a b`; for equal
keys `a` (the earlier element of the original list, inserted last by
`sortBy`) therefore ends up first, which makes the sort stable. -/
def insSorted {α : Type} (le : α → α → Bool) (a : α) : List α → List α
  | [] => [a]
  | b :: bs => if le a b then a :: b :: bs else b :: insSorted le a bs

/-- Stable insertion sort. -/
def sortBy {α : Type} (le : α → α → Bool) : List α → List α
  | [] => []
  | a :: rest => insSorted le a (sortBy le rest)

theorem insSorted_perm {α : Type} (le : α → α → Bool) (a : α) (l : List α) :
    (insSorted le a l).Perm (a :: l) := by
  induction l with
  | nil => simp [insSorted]
  | cons b bs ih =>
    simp only [insSorted]
    by_cases h : le a b
    · simp [h]
    · simp only [h]
      simp only [Bool.false_eq_true, if_false]
      exact (List.Perm.cons b ih).trans (List.Perm.swap a b bs)

theorem sortBy_perm {α : Type} (le : α → α → Bool) (l : List α) :
    (sortBy le l).Perm l := by
  induction l with
  | nil => simp [sortBy]
  | cons a rest ih =>
    exact (insSorted_perm le a (sortBy le rest)).trans (List.Perm.cons a ih)

theorem insSorted_pairwise {α : Type} (le : α → α → Bool)
    (htot : ∀ x y, le x y = true ∨ le y x = true)
    (htrans : ∀ x y z, le x y = true → le y z = true → le x z = true)
    (a : α) (l : List α) (hl : l.Pairwise (fun x y => le x y = true)) :
    (insSorted le a l).Pairwise (fun x y => le x y = true) := by
  induction l with
  | nil => simp [insSorted]
  | cons b bs ih =>
    rcases List.pairwise_cons.mp hl with ⟨hb, hbs⟩
    simp only [insSorted]
    by_cases h : le a b
    · simp only [h, if_true]
      refine List.pairwise_cons.mpr ⟨?_, hl⟩
      intro x hx
      rcases List.mem_cons.mp hx with rfl | hx2
      · exact h
      · exact htrans a b x h (hb x hx2)
    · simp only [h]
      simp only [Bool.false_eq_true, if_false]
      refine List.pairwise_cons.mpr ⟨?_, ih hbs⟩
      intro x hx
      have hmem := (insSorted_perm le a bs).mem_iff.mp hx
      rcases List.mem_cons.mp hmem with rfl | hx2
      · rcases htot x b with hab | hba
        · exact absurd hab h
        · exact hba
      · exact hb x hx2

theorem sortBy_pairwise {α : Type} (le : α → α → Bool)
    (htot : ∀ x y, le x y = true ∨ le y x = true)
    (htrans : ∀ x y z, le x y = true → le y z = true → le x z = true)
    (l : List α) :
    (sortBy le l).Pairwise (fun x y => le x y = true) := by
  induction l with
  | nil => simp [sortBy]
  | cons a rest ih => exact insSorted_pairwise le htot htrans a _ ih

/-- The head of a sorted list is `le` every element of the list. -/
theorem sortBy_head_min {α : Type} (le : α → α → Bool)
    (htot : ∀ x y, le x y = true ∨ le y x = true)
    (htrans : ∀ x y z, le x y = true → le y z = true → le x z = true)
    (hrefl : ∀ x, le x x = true)
    (l : List α) (e : α) (rest : List α) (h : sortBy le l = e :: rest) :
    ∀ x ∈ l, le e x = true := by
  intro x hx
  have hp := sortBy_pairwise le htot htrans l
  rw [h] at hp
  have hmem : x ∈ e :: rest := by
    rw [← h]
    exact ((sortBy_perm le l).mem_iff).mpr hx
  rcases List.mem_cons.mp hmem with rfl | hx2
  · exact hrefl x
  · exact (List.pairwise_cons.mp hp).1 x hx2

/-- `np.argsort`: the list of positions sorted by the values they hold.
The values compared here are always pairwise distinct, so kind-of-sort
stability questions do not arise. -/
def argsort (l : List Nat) : List Nat :=
  sortBy (fun i j => l.getD i 0 ≤ l.getD j 0) (List.range l.length)

theorem argsort_perm_range (l : List Nat) :
    (argsort l).Perm (List.range l.length) :=
  sortBy_perm _ _

theorem argsort_pairwise (l : List Nat) :
    (argsort l).Pairwise (fun i j => l.getD i 0 ≤ l.getD j 0) := by
  have := sortBy_pairwise (fun i j : Nat => (l.getD i 0 ≤ l.getD j 0 : Bool))
    (fun x y => by simp [Nat.le_total]) (fun x y z h1 h2 => by
      simp only [decide_eq_true_eq] at *
      exact Nat.le_trans h1 h2) (List.range l.length)
  exact this.imp (by simp)

/-! ### The array model

A numpy `ndarray` is modelled by its shape and a total data function on
positional index lists.  `np.empty` leaves the data uninitialised; the
model fills it with zeros, which is irrelevant because every cell that
is ever read has been written.  The `dtype` argument of `np.empty` only
selects the element type and is not modelled. -/

structure NDArr where
  shape : List Nat
  data : List Nat → Int

/-- `np.empty(shape, dtype=...)`. -/
def NDArr.empty (shape : List Nat) : NDArr :=
  { shape := shape, data := fun _ => 0 }

/-- `a.transpose(perm)`: entry `i` of the result is entry `j` of `a`
with `j[perm[k]] = i[k]`. -/
def NDArr.transposed (a : NDArr) (perm : List Nat) : NDArr :=
  { shape := perm.map (fun j => a.shape.getD j 0),
    data := fun ix =>
      a.data ((List.range a.shape.length).map
        (fun m => ix.getD (perm.indexOf m) 0)) }

/-- `np.take(a, v, axis=ax)` with a scalar index `v`: drops axis `ax`,
selecting coordinate `v` along it. -/
def NDArr.take (a : NDArr) (v : Nat) (ax : Nat) : NDArr :=
  { shape := a.shape.eraseIdx ax,
    data := fun ix => a.data (ix.insertIdx ax v) }

/-- `result[indices] = frame`: block assignment at the index prefix
`pre` (numpy would also validate that the block shapes agree; in the
planner they always do). -/
def NDArr.setBlock (a : NDArr) (pre : List Nat) (b : NDArr) : NDArr :=
  { a with data := fun ix =>
      if ix.take pre.length = pre then b.data (ix.drop pre.length)
      else a.data ix }

/-- Metadata values: the claims only ever exercise scalar values; the
`arr` form records the result of `np.array(values)` with
`.shape = iter_shape` as produced by the metadata merge of `_bundle`. -/
inductive MdVal where
  | int (v : Int)
  | arr (vals : List MdVal) (shape : List Nat)

mutual

/-- Python `==` on metadata values. -/
def MdVal.beq : MdVal → MdVal → Bool
  | .int a, .int b => a == b
  | .arr as s1, .arr bs s2 => s1 == s2 && MdVal.beqL as bs
  | _, _ => false

/-- Python `==` on lists of metadata values. -/
def MdVal.beqL : List MdVal → List MdVal → Bool
  | [], [] => true
  | a :: as, b :: bs => MdVal.beq a b && MdVal.beqL as bs
  | _, _ => false

end

/-- A metadata dictionary (`frame.metadata`). -/
abbrev Md := List (String × MdVal)

/-- A pims `Frame`: an ndarray with optional metadata and frame number.
A plain ndarray returned by a native method is a `Frame` with no
metadata. -/
structure Frame where
  arr : NDArr
  metadata : Option Md
  frame_no : Option Nat

/-- A native reader method: `**ind -> Frame`. -/
abbrev Native := Coords → Frame

/-- A synthesized get-frame function, instrumented with the trace of the
coordinate assignments passed to the underlying native method calls. -/
abbrev GFrame := Coords → Frame × List Coords

/-- Instrumentation wrapper placed at each use of `get_frame_dict[axes]`:
one native call, recorded in the trace. -/
def traced (f : Native) : GFrame := fun ind => (f ind, [ind])

/-- `{n: i for n, i in zip(names, vals)}` merged over `ind` (the
`ind.update(...)` of `_bundle`); `names` is duplicate-free wherever this
is used, so first-match lookup agrees with the Python dict. -/
def overrideC (ind : Coords) (names : List Axis) (vals : List Nat) : Coords :=
  fun a => match (names.zip vals).lookup a with
    | some v => v
    | none => ind a

/-! ### The planner (`_transpose`, `_bundle`, `_drop`, `_make_get_frame`) -/

/-- `_transpose(get_frame, expected_axes, desired_axes)`: identity when
the two axis lists are equal, otherwise wraps with a positional
transpose (`transposition = [expected_axes.index(a) for a in
desired_axes]`).  pims `Frame.transpose` carries the metadata along. -/
def _transpose (get_frame : GFrame) (expected_axes desired_axes : List Axis) :
    GFrame :=
  if expected_axes = desired_axes then get_frame
  else
    let transposition := desired_axes.map (fun a => expected_axes.indexOf a)
    fun ind =>
      let ft := get_frame ind
      ({ ft.1 with arr := ft.1.arr.transposed transposition }, ft.2)

/-- `[row[k] for row in md_list]`: the values of key `k` in every
sub-call metadata dictionary, or `none` when some dictionary misses the
key (the `KeyError` raised by the comprehension). -/
def lookupAll (md_list : List Md) (k : String) : Option (List MdVal) :=
  match md_list with
  | [] => some []
  | row :: rest =>
    match row.lookup k, lookupAll rest k with
    | some v, some vs => some (v :: vs)
    | _, _ => none

/-- The metadata-merge block of `_bundle` (lines 58-75 of
`base_frames.py`), for the case where every sub-call produced metadata.
Returns the merged dictionary together with the list of keys for which
`warn('metadata field {} is not propagated')` fired.  Only the keys of
the first sub-call dictionary are considered; a key that is missing from
a later dictionary raises `KeyError` inside the list comprehension and
is dropped with a warning.  (With positive axis sizes `md_list` is
nonempty whenever this is reached; the empty case would be an
`IndexError` on `md_list[0]` in the source.) -/
def propagate_metadata (md_list : List Md) (iter_shape : List Nat) :
    Md × List String :=
  match md_list with
  | [] => ([], [])
  | md0 :: _ =>
    let keys := md0.map Prod.fst
    keys.foldl (fun acc k =>
      match lookupAll md_list k with
      | none => (acc.1, acc.2 ++ [k])
      | some vals =>
        if MdVal.beqL vals.tail vals.dropLast then
          (acc.1 ++ [(k, vals.headD (.int 0))], acc.2)
        else
          (acc.1 ++ [(k, MdVal.arr vals iter_shape)], acc.2)) ([], [])

/-- The body of the `for indices in product(...)` loop of `_bundle`:
update the coordinates with the current iteration indices, call the
wrapped function, write the sub-array into the output block, collect the
metadata when the sub-frame carries any, and extend the call trace. -/
def bundleStep (get_frame : GFrame) (to_iter : List Axis) (ind : Coords)
    (acc : NDArr × List Md × List Coords) (indices : List Nat) :
    NDArr × List Md × List Coords :=
  let ind2 := overrideC ind to_iter indices
  let ft := get_frame ind2
  let res := acc.1.setBlock indices ft.1.arr
  let mds := match ft.1.metadata with
    | some m => acc.2.1 ++ [m]
    | none => acc.2.1
  (res, mds, acc.2.2 ++ ft.2)

/-- `_bundle(get_frame, expected_axes, to_iter, sizes, dtype)`:
preallocates `np.empty([sizes[a] for a in to_iter + expected_axes])`,
iterates `itertools.product` over the sizes of `to_iter` (row-major,
last axis fastest), writes each sub-frame into the output block at the
current prefix, collects the metadata of every sub-frame that has any,
and merges it if and only if every sub-call produced metadata. -/
def _bundle (get_frame : GFrame) (expected_axes to_iter : List Axis)
    (sizes : Axis → Nat) : GFrame × List Axis :=
  let bundled_axes := to_iter ++ expected_axes
  let shape := bundled_axes.map sizes
  let iter_shape := shape.take to_iter.length
  let fn : GFrame := fun ind =>
    let out := (productList iter_shape).foldl
      (bundleStep get_frame to_iter ind) (NDArr.empty shape, [], [])
    let metadata : Option Md :=
      if out.2.1.length = iter_shape.prod then
        some (propagate_metadata out.2.1 iter_shape).1
      else none
    ({ arr := out.1, metadata := metadata, frame_no := none }, out.2.2)
  (fn, bundled_axes)

/-- `_drop`: `axes = [to_drop_inds[i] for i in reversed(np.argsort(to_drop_inds))]`
— the positions of the axes to drop, in descending order. -/
def drop_sorted_axes (expected_axes to_drop0 : List Axis) : List Nat :=
  let to_drop_inds := to_drop0.map (fun a => expected_axes.indexOf a)
  (argsort to_drop_inds).reverse.map (fun i => to_drop_inds.getD i 0)

/-- `_drop`: `to_drop = [to_drop[i] for i in reversed(np.argsort(to_drop_inds))]`
— the names reordered consistently with `drop_sorted_axes`. -/
def drop_sorted_names (expected_axes to_drop0 : List Axis) : List Axis :=
  let to_drop_inds := to_drop0.map (fun a => expected_axes.indexOf a)
  (argsort to_drop_inds).reverse.map (fun i => to_drop0.getD i "")

/-- `_drop(get_frame, expected_axes, to_drop)`: one call to the wrapped
function, then one `np.take` per superfluous axis at the coordinate
`ind[name]`, processing positions in descending order.  (pims `Frame`
keeps its metadata through `np.take`.) -/
def _drop (get_frame : GFrame) (expected_axes to_drop0 : List Axis) :
    GFrame × List Axis :=
  let axes := drop_sorted_axes expected_axes to_drop0
  let to_drop := drop_sorted_names expected_axes to_drop0
  let result_axes := expected_axes.filter (fun a => decide (¬ a ∈ to_drop))
  let fn : GFrame := fun ind =>
    let ft := get_frame ind
    let arr := (axes.zip to_drop).foldl
      (fun acc p => acc.take (ind p.2) p.1) ft.1.arr
    ({ ft.1 with arr := arr }, ft.2)
  (fn, result_axes)

/-- One row of the cost table `arr` built by `_make_get_frame`:
`[method, axes_set, to_iter, n_iter, to_drop, n_drop]`. -/
structure PlanEntry where
  axes : List Axis
  fn : Native
  to_iter : List Axis
  n_iter : Nat
  to_drop : List Axis
  n_drop : Nat

/-- `len(set(axes) ^ result_axes_set) == 0`: the two lists hold the same
set of axis names. -/
def sameSet (xs ys : List Axis) : Bool :=
  xs.all (fun a => ys.contains a) && ys.all (fun a => xs.contains a)

/-- Build one row of the cost table.  `to_iter = list(result_axes_set -
axes_set)` and `to_drop = list(axes_set - result_axes_set)` are CPython
set differences whose iteration order is unspecified; they are modelled
in first-occurrence order (`filter` + `dedup`), which has the same
members.  `n_iter`/`n_drop` are `int(np.prod(...))`, so an empty
difference gives 1 (the empty product), not 0. -/
def mkPlanEntry (result_axes : List Axis) (sizes : Axis → Nat)
    (p : List Axis × Native) : PlanEntry :=
  let to_iter := (result_axes.filter (fun a => decide (¬ a ∈ p.1))).dedup
  let to_drop := (p.1.filter (fun a => decide (¬ a ∈ result_axes))).dedup
  { axes := p.1, fn := p.2,
    to_iter := to_iter, n_iter := (to_iter.map sizes).prod,
    to_drop := to_drop, n_drop := (to_drop.map sizes).prod }

/-- Python tuple comparison `(x[3], x[5]) <= (y[3], y[5])`. -/
def lexLe (a b : Nat × Nat) : Bool :=
  decide (a.1 < b.1 ∨ (a.1 = b.1 ∧ a.2 ≤ b.2))

/-- `_make_get_frame(result_axes, get_frame_dict, sizes, dtype)`.
Returns `none` only for an empty method dictionary (where the source
would fail on `arr[0]`; the caller guards this case).  The three
in-place `arr.sort(...)` calls of the source are modelled by successive
stable sorts.  -/
def _make_get_frame (result_axes : List Axis)
    (get_frame_dict : List (List Axis × Native)) (sizes : Axis → Nat) :
    Option GFrame :=
  match get_frame_dict.find? (fun p => sameSet p.1 result_axes) with
  | some p => some (_transpose (traced p.2) p.1 result_axes)
  | none =>
    let arr := get_frame_dict.map (mkPlanEntry result_axes sizes)
    let arr1 := sortBy (fun x y => decide (x.n_iter ≤ y.n_iter)) arr
    match arr1.find? (fun e => decide (e.n_drop = 0)) with
    | some e =>
      let bundled_axes := e.to_iter ++ e.axes
      let gb := _bundle (traced e.fn) e.axes e.to_iter sizes
      some (_transpose gb.1 bundled_axes result_axes)
    | none =>
      let arr2 := sortBy (fun x y => decide (x.n_drop ≤ y.n_drop)) arr1
      match arr2.find? (fun e => decide (e.n_iter = 0)) with
      | some e =>
        let gd := _drop (traced e.fn) e.axes e.to_drop
        some (_transpose gd.1 gd.2 result_axes)
      | none =>
        let arr3 := sortBy
          (fun x y => lexLe (x.n_iter, x.n_drop) (y.n_iter, y.n_drop)) arr2
        match arr3 with
        | [] => none
        | e :: _ =>
          let gd := _drop (traced e.fn) e.axes e.to_drop
          let gb := _bundle gd.1 gd.2 e.to_iter sizes
          some (_transpose gb.1 gb.2 result_axes)

/-! ### The reader facade (`FramesSequenceND`) -/

/-- Errors the facade can raise. -/
inductive Err where
  | valueError
  | runtimeError
  | indexError
deriving DecidableEq

/-- `FramesSequenceND` state: the tagged native read methods discovered
on the class (fixed for the lifetime of the instance) and the five
mutable attributes set up by `_clear_axes`. -/
structure Reader where
  methods : List (List Axis × Native)
  _sizes : List (Axis × Nat)
  _default_coords : List (Axis × Nat)
  _iter_axes : List Axis
  _bundle_axes : List Axis
  _get_frame_wrapped : Option GFrame

/-- A freshly constructed reader (after `_clear_axes`). -/
def Reader.mk0 (methods : List (List Axis × Native)) : Reader :=
  { methods := methods, _sizes := [], _default_coords := [],
    _iter_axes := [], _bundle_axes := [], _get_frame_wrapped := none }

/-- Python dict single-key assignment `d[k] = v`. -/
def dictInsert (d : List (Axis × Nat)) (k : Axis) (v : Nat) :
    List (Axis × Nat) :=
  if (d.lookup k).isSome then d.map (fun p => if p.1 = k then (k, v) else p)
  else d ++ [(k, v)]

/-- Python `d.update(**value)`. -/
def dictUpdate (d value : List (Axis × Nat)) : List (Axis × Nat) :=
  value.foldl (fun acc p => dictInsert acc p.1 p.2) d

/-- `self._sizes[a]` as a total function (`0` for unregistered axes,
which every caller rules out by validation). -/
def Reader.sizeOfAx (r : Reader) (a : Axis) : Nat :=
  (r._sizes.lookup a).getD 0

/-- `_init_axis(name, size, default=0)`.  Every setter/state function of
the model returns the state the Python object is left in together with
the error it raises, if any. -/
def Reader.init_axis (r : Reader) (name : Axis) (size : Nat)
    (default : Nat) : Reader × Option Err :=
  if (r._sizes.lookup name).isSome then (r, some .valueError)
  else
    ({ r with
        _sizes := r._sizes ++ [(name, size)],
        _default_coords := dictInsert r._default_coords name default },
      none)

/-- The `bundle_axes` setter: validate, remove the new bundle axes from
`_iter_axes` (first occurrence each, like `del l[l.index(k)]`), store,
rebuild the method dictionary and re-plan.  The legacy untagged
`get_frame_2D` fallback is not modelled (every reader considered here
has at least one tagged method); with no methods at all the source
raises `RuntimeError` after having already mutated the axis lists. -/
def Reader.set_bundle_axes (r : Reader) (value : List Axis) :
    Reader × Option Err :=
  let invalid := value.filter (fun k => !(r._sizes.lookup k).isSome)
  if invalid ≠ [] then (r, some .valueError)
  else
    let iter2 := value.foldl (fun ia k => ia.erase k) r._iter_axes
    let r2 := { r with _iter_axes := iter2, _bundle_axes := value }
    if r2.methods.isEmpty then (r2, some .runtimeError)
    else
      match _make_get_frame r2._bundle_axes r2.methods r2.sizeOfAx with
      | some gf => ({ r2 with _get_frame_wrapped := some gf }, none)
      | none => (r2, some .runtimeError)

/-- The `iter_axes` setter: validate, remove the new iteration axes from
`_bundle_axes`, store.  No re-planning. -/
def Reader.set_iter_axes (r : Reader) (value : List Axis) :
    Reader × Option Err :=
  let invalid := value.filter (fun k => !(r._sizes.lookup k).isSome)
  if invalid ≠ [] then (r, some .valueError)
  else
    let bundle2 := value.foldl (fun ba k => ba.erase k) r._bundle_axes
    ({ r with _bundle_axes := bundle2, _iter_axes := value }, none)

/-- The `default_coords` setter: validate all keys, then
`self._default_coords.update(**value)`. -/
def Reader.set_default_coords (r : Reader) (value : List (Axis × Nat)) :
    Reader × Option Err :=
  let invalid := (value.map Prod.fst).filter (fun k => !(r._sizes.lookup k).isSome)
  if invalid ≠ [] then (r, some .valueError)
  else ({ r with _default_coords := dictUpdate r._default_coords value }, none)

/-- `__len__`: the product of the sizes of the iteration axes. -/
def Reader.len (r : Reader) : Nat :=
  (r._iter_axes.map r.sizeOfAx).prod

/-- `self._default_coords` as a coordinate assignment. -/
def Reader.defaultCoordsFn (r : Reader) : Coords :=
  fun a => (r._default_coords.lookup a).getD 0

/-- `[self._sizes[k] for k in self._iter_axes]`. -/
def Reader.iterSizes (r : Reader) : List Nat :=
  r._iter_axes.map r.sizeOfAx

/-- The body of `get_frame` after the index check and the lazy kick:
merge the default coordinates with the mixed-radix decomposition of `i`
over the iteration axes, call the synthesized function, and wrap the
result with `frame_no=i`. -/
def runWrapped (r : Reader) (gf : GFrame) (i : Nat) : Frame × List Coords :=
  let coords := overrideC r.defaultCoordsFn r._iter_axes
    (iterDigits r.iterSizes i)
  let ft := gf coords
  ({ arr := ft.1.arr, metadata := ft.1.metadata, frame_no := some i }, ft.2)

/-- `get_frame(i)`: raises `IndexError` when `i > len(self)` (the source
uses a strict comparison); lazily kicks `bundle_axes` when no synthesized
function is cached yet. -/
def Reader.get_frame (r : Reader) (i : Nat) :
    Reader × Except Err (Frame × List Coords) :=
  if i > r.len then (r, .error .indexError)
  else
    match r._get_frame_wrapped with
    | some gf => (r, .ok (runWrapped r gf i))
    | none =>
      let rs := r.set_bundle_axes r._bundle_axes
      match rs.2 with
      | some e => (rs.1, .error e)
      | none =>
        match rs.1._get_frame_wrapped with
        | some gf => (rs.1, .ok (runWrapped rs.1 gf i))
        | none => (rs.1, .error .runtimeError)

/-- One configuration assignment on the facade. -/
inductive ConfigOp where
  | setBundle (v : List Axis)
  | setIter (v : List Axis)
  | setDefaults (v : List (Axis × Nat))

/-- Apply one assignment; the state is kept even when the setter raises
(matching Python exception semantics). -/
def applyOp (r : Reader) : ConfigOp → Reader × Option Err
  | .setBundle v => r.set_bundle_axes v
  | .setIter v => r.set_iter_axes v
  | .setDefaults v => r.set_default_coords v

/-- Apply a sequence of assignments. -/
def applyOps (r : Reader) (ops : List ConfigOp) : Reader :=
  ops.foldl (fun s op => (applyOp s op).1) r

/-- Register a list of axes with their sizes (the `_init_axis` calls of
a reader constructor, with the default coordinate 0 of the source's
default argument). -/
def initAxes (r : Reader) (axs : List (Axis × Nat)) : Reader :=
  axs.foldl (fun s p => (s.init_axis p.1 p.2 0).1) r

/-! ### Helper lemmas about the facade state -/

theorem lookup_of_invalid_nil (r : Reader) (value : List Axis)
    (h : value.filter (fun k => !(r._sizes.lookup k).isSome) = []) :
    ∀ k ∈ value, (r._sizes.lookup k).isSome := by
  intro k hk
  have := List.filter_eq_nil_iff.mp h k hk
  simpa using this

theorem foldl_erase_subset (B v : List Axis) :
    ∀ a, a ∈ v.foldl (fun l k => l.erase k) B → a ∈ B := by
  induction v generalizing B with
  | nil => intro a ha; exact ha
  | cons k vrest ih =>
    intro a ha
    exact List.erase_subset k B (ih (B.erase k) a ha)

theorem foldl_erase_nodup (B v : List Axis) (hB : B.Nodup) :
    (v.foldl (fun l k => l.erase k) B).Nodup := by
  induction v generalizing B with
  | nil => exact hB
  | cons k vrest ih => exact ih (B.erase k) (List.Nodup.erase k hB)

theorem foldl_erase_not_mem (B v : List Axis) (hB : B.Nodup)
    (a : Axis) (ha : a ∈ v) : a ∉ v.foldl (fun l k => l.erase k) B := by
  induction v generalizing B with
  | nil => simp at ha
  | cons k vrest ih =>
    rcases List.mem_cons.mp ha with rfl | ha2
    · intro hmem
      have : a ∈ B.erase a := foldl_erase_subset (B.erase a) vrest a hmem
      exact ((List.Nodup.mem_erase_iff hB).mp this).1 rfl
    · exact ih (B.erase k) (List.Nodup.erase k hB) ha2

theorem initAxes_bundle_iter (r : Reader) (axs : List (Axis × Nat)) :
    (initAxes r axs)._bundle_axes = r._bundle_axes ∧
    (initAxes r axs)._iter_axes = r._iter_axes ∧
    (initAxes r axs)._get_frame_wrapped = r._get_frame_wrapped ∧
    (initAxes r axs).methods = r.methods := by
  induction axs generalizing r with
  | nil => exact ⟨rfl, rfl, rfl, rfl⟩
  | cons p rest ih =>
    have hstep : ((r.init_axis p.1 p.2 0).1)._bundle_axes = r._bundle_axes ∧
        ((r.init_axis p.1 p.2 0).1)._iter_axes = r._iter_axes ∧
        ((r.init_axis p.1 p.2 0).1)._get_frame_wrapped = r._get_frame_wrapped ∧
        ((r.init_axis p.1 p.2 0).1).methods = r.methods := by
      unfold Reader.init_axis
      split
      · exact ⟨rfl, rfl, rfl, rfl⟩
      · exact ⟨rfl, rfl, rfl, rfl⟩
    have ihr := ih ((r.init_axis p.1 p.2 0).1)
    unfold initAxes at ihr ⊢
    simp only [List.foldl_cons]
    exact ⟨ihr.1.trans hstep.1, ihr.2.1.trans hstep.2.1,
      ihr.2.2.1.trans hstep.2.2.1, ihr.2.2.2.trans hstep.2.2.2⟩

/-- The bundled/iterated axis lists are disjoint. -/
def axesDisjoint (r : Reader) : Prop :=
  ∀ a, ¬(a ∈ r._bundle_axes ∧ a ∈ r._iter_axes)

/-- Partition invariant maintained by the setters (for duplicate-free
assigned values): both lists duplicate-free, registered, and disjoint. -/
def PartInv (r : Reader) : Prop :=
  r._bundle_axes.Nodup ∧ r._iter_axes.Nodup ∧
  (∀ a ∈ r._bundle_axes, (r._sizes.lookup a).isSome) ∧
  (∀ a ∈ r._iter_axes, (r._sizes.lookup a).isSome) ∧
  axesDisjoint r

/-- The values a configuration assignment carries are duplicate-free. -/
def opValuesNodup : ConfigOp → Prop
  | .setBundle v => v.Nodup
  | .setIter v => v.Nodup
  | .setDefaults _ => True

theorem PartInv_init_axis (r : Reader) (name : Axis) (size d : Nat)
    (h : PartInv r) : PartInv ((r.init_axis name size d).1) := by
  obtain ⟨h1, h2, h3, h4, h5⟩ := h
  unfold Reader.init_axis
  split
  · exact ⟨h1, h2, h3, h4, h5⟩
  · refine ⟨h1, h2, ?_, ?_, h5⟩
    · intro a ha
      have := h3 a ha
      simp only [List.lookup_append]
      cases hl : r._sizes.lookup a with
      | some u => simp
      | none => rw [hl] at this; simp at this
    · intro a ha
      have := h4 a ha
      simp only [List.lookup_append]
      cases hl : r._sizes.lookup a with
      | some u => simp
      | none => rw [hl] at this; simp at this

theorem PartInv_applyOp (r : Reader) (op : ConfigOp)
    (hop : opValuesNodup op) (h : PartInv r) : PartInv ((applyOp r op).1) := by
  obtain ⟨h1, h2, h3, h4, h5⟩ := h
  cases op with
  | setBundle v =>
    unfold applyOp Reader.set_bundle_axes
    dsimp only
    split
    · exact ⟨h1, h2, h3, h4, h5⟩
    · rename_i hvalid
      have hreg : ∀ k ∈ v, (r._sizes.lookup k).isSome :=
        lookup_of_invalid_nil r v (by simpa using hvalid)
      have hnew : PartInv
          { r with _iter_axes := v.foldl (fun l k => l.erase k) r._iter_axes,
                   _bundle_axes := v } := by
        refine ⟨hop, foldl_erase_nodup _ _ h2, hreg, ?_, ?_⟩
        · intro a ha
          exact h4 a (foldl_erase_subset _ _ a ha)
        · intro a ⟨hab, hai⟩
          exact foldl_erase_not_mem r._iter_axes v h2 a hab hai
      split
      · exact hnew
      · split
        · exact hnew
        · exact hnew
  | setIter v =>
    unfold applyOp Reader.set_iter_axes
    dsimp only
    split
    · exact ⟨h1, h2, h3, h4, h5⟩
    · rename_i hvalid
      have hreg : ∀ k ∈ v, (r._sizes.lookup k).isSome :=
        lookup_of_invalid_nil r v (by simpa using hvalid)
      refine ⟨foldl_erase_nodup _ _ h1, hop, ?_, hreg, ?_⟩
      · intro a ha
        exact h3 a (foldl_erase_subset _ _ a ha)
      · intro a ⟨hab, hai⟩
        exact foldl_erase_not_mem r._bundle_axes v h1 a hai hab
  | setDefaults w =>
    unfold applyOp Reader.set_default_coords
    dsimp only
    split
    · exact ⟨h1, h2, h3, h4, h5⟩
    · exact ⟨h1, h2, h3, h4, h5⟩

theorem PartInv_applyOps (r : Reader) (ops : List ConfigOp)
    (hops : ∀ op ∈ ops, opValuesNodup op) (h : PartInv r) :
    PartInv (applyOps r ops) := by
  induction ops generalizing r with
  | nil => exact h
  | cons op rest ih =>
    unfold applyOps
    simp only [List.foldl_cons]
    exact ih ((applyOp r op).1)
      (fun o ho => hops o (by simp [ho]))
      (PartInv_applyOp r op (hops op (by simp)) h)

/-- Looking up the `k`-th name of a duplicate-free name list in the
zipped coordinate update retrieves the `k`-th value. -/
theorem overrideC_get (ind : Coords) (names : List Axis) (vals : List Nat)
    (hnd : names.Nodup) (hlen : names.length ≤ vals.length) (k : Nat)
    (hk : k < names.length) :
    overrideC ind names vals (names.get ⟨k, hk⟩) = vals.getD k 0 := by
  induction names generalizing vals k with
  | nil => simp at hk
  | cons n ns ih =>
    cases vals with
    | nil => simp at hlen
    | cons v vs =>
      cases k with
      | zero =>
        show overrideC ind (n :: ns) (v :: vs) n = v
        unfold overrideC
        simp [List.zip_cons_cons, List.lookup]
      | succ k =>
        have hk2 : k < ns.length := by simpa using hk
        have hne : ns.get ⟨k, hk2⟩ ≠ n := by
          intro heq
          apply (List.nodup_cons.mp hnd).1
          rw [← heq]
          exact List.get_mem ns k hk2
        have hrec := ih vs (List.nodup_cons.mp hnd).2 (by simpa using hlen) k hk2
        show overrideC ind (n :: ns) (v :: vs) (ns.get ⟨k, hk2⟩) = vs.getD k 0
        unfold overrideC at hrec ⊢
        simp only [List.zip_cons_cons, List.lookup]
        have hbeq : (ns.get ⟨k, hk2⟩ == n) = false := by
          simpa using hne
        rw [hbeq]
        exact hrec

/-! ### Concrete reader instances used by the claim theorems -/

/-- A native method returning a constant array of the given shape. -/
def constNative (shape : List Nat) : Native :=
  fun _ => { arr := { shape := shape, data := fun _ => 0 },
             metadata := none, frame_no := none }

/-- One tagged method producing `('y', 'x')` planes of shape (2, 3). -/
def methodsYX : List (List Axis × Native) := [(["y", "x"], constNative [2, 3])]

/-- Reader with axes `y=2`, `x=3`, `t=10` and a native `('y','x')` method. -/
def readerYXT : Reader :=
  initAxes (Reader.mk0 methodsYX) [("y", 2), ("x", 3), ("t", 10)]

/-- `readerYXT` after `bundle_axes = ['y','x']` and `iter_axes = ['t']`
(the configuration of spec scenario 5). -/
def readerC2 : Reader :=
  ((readerYXT.set_bundle_axes ["y", "x"]).1.set_iter_axes ["t"]).1

/-! ### Claim theorems -/

/-- **C2** [code_bug evidence]: with axes `t=10` and `iter_axes=['t']`
(`len() = 10`), the claim requires `get_frame(10)` to raise the
index-out-of-range error.  The source tests `i > len(self)`, so
`get_frame(10)` succeeds — its mixed-radix coordinate wraps around to
`t=0` — while `get_frame(11)` raises. -/
theorem C2_range_check_off_by_one :
    readerC2.len = 10 ∧
    ((readerC2.get_frame 10).2).isOk = true ∧
    iterDigits readerC2.iterSizes 10 = [0] ∧
    ((readerC2.get_frame 11).2).isOk = false := by
  refine ⟨rfl, rfl, rfl, rfl⟩

/-- **C3**: for `iter_axes` sizes `[s0,...,sn]` and any flat index
`i < ∏ sk`, the coordinate `get_frame` computes for axis `ak` is
`(i / ∏_{j>k} s_j) % s_k` (last axis fastest), re-flattening the
coordinates by the inverse mixed-radix formula reproduces `i`, and the
coordinate assignment passed to the synthesized function indeed maps the
`k`-th iteration axis to the `k`-th digit. -/
theorem C3_index_decomposition_law (l : List Nat) (i : Nat) (hi : i < l.prod) :
    (∀ k, k < l.length →
        (iterDigits l i).getD k 0 = (i / (l.drop (k + 1)).prod) % l.getD k 0) ∧
    recompose l (iterDigits l i) = i ∧
    (∀ r : Reader, r._iter_axes.Nodup → r.iterSizes = l →
      ∀ k, ∀ hk : k < r._iter_axes.length,
        overrideC r.defaultCoordsFn r._iter_axes (iterDigits r.iterSizes i)
          (r._iter_axes.get ⟨k, hk⟩) = (iterDigits l i).getD k 0) := by
  refine ⟨fun k hk => iterDigits_getD l i k hk,
    recompose_iterDigits l i hi, ?_⟩
  intro r hnd hsz k hk
  have hlen : r._iter_axes.length ≤ (iterDigits r.iterSizes i).length := by
    rw [iterDigits_length]
    unfold Reader.iterSizes
    simp
  rw [hsz] at hlen ⊢
  exact overrideC_get r.defaultCoordsFn r._iter_axes (iterDigits l i) hnd
    hlen k hk

/-- Witness for C3 at sizes `[2, 5]`, index `7`. -/
theorem C3_index_decomposition_law_witness :
    7 < ([2, 5] : List Nat).prod ∧
    recompose [2, 5] (iterDigits [2, 5] 7) = 7 :=
  ⟨by decide, (C3_index_decomposition_law [2, 5] 7 (by decide)).2.1⟩

/-- State after `readerYXT.iter_axes = ['t', 't']` (a valid assignment:
`'t'` is registered, the setter performs no duplicate check). -/
def C4_s1 : Reader × Option Err := readerYXT.set_iter_axes ["t", "t"]

/-- State after the further assignment `bundle_axes = ['t']`. -/
def C4_s2 : Reader × Option Err := C4_s1.1.set_bundle_axes ["t"]

/-- **C4** [counterexample]: after the valid assignments
`iter_axes = ['t','t']` and `bundle_axes = ['t']`, the axis `'t'` is in
both `bundle_axes` and `iter_axes` — the overlap removal deletes only
the first occurrence — so the two sets are not disjoint and `'t'` is in
two classes at once. -/
theorem C4_counterexample :
    C4_s1.2 = none ∧ C4_s2.2 = none ∧
    C4_s2.1._bundle_axes = ["t"] ∧ C4_s2.1._iter_axes = ["t"] ∧
    ¬ axesDisjoint C4_s2.1 := by
  refine ⟨rfl, rfl, rfl, rfl, ?_⟩
  intro h
  exact h "t" ⟨by simp [show C4_s2.1._bundle_axes = ["t"] from rfl],
    by simp [show C4_s2.1._iter_axes = ["t"] from rfl]⟩

/-- **C4** [amended]: after any sequence of assignments whose assigned
axis lists are duplicate-free, on a freshly initialised reader, the
bundled and iterated axis sets are disjoint and every registered axis
lies in exactly one of the classes bundled / iterated /
default-coordinate. -/
theorem C4_partition_amended (ms : List (List Axis × Native))
    (inits : List (Axis × Nat)) (ops : List ConfigOp)
    (hops : ∀ op ∈ ops, opValuesNodup op) :
    axesDisjoint (applyOps (initAxes (Reader.mk0 ms) inits) ops) ∧
    ∀ a, ((applyOps (initAxes (Reader.mk0 ms) inits) ops)._sizes.lookup a).isSome →
      (a ∈ (applyOps (initAxes (Reader.mk0 ms) inits) ops)._bundle_axes ∧
        a ∉ (applyOps (initAxes (Reader.mk0 ms) inits) ops)._iter_axes) ∨
      (a ∈ (applyOps (initAxes (Reader.mk0 ms) inits) ops)._iter_axes ∧
        a ∉ (applyOps (initAxes (Reader.mk0 ms) inits) ops)._bundle_axes) ∨
      (a ∉ (applyOps (initAxes (Reader.mk0 ms) inits) ops)._bundle_axes ∧
        a ∉ (applyOps (initAxes (Reader.mk0 ms) inits) ops)._iter_axes) := by
  have h0 : PartInv (initAxes (Reader.mk0 ms) inits) := by
    obtain ⟨hb, hi, -, -⟩ := initAxes_bundle_iter (Reader.mk0 ms) inits
    refine ⟨?_, ?_, ?_, ?_, ?_⟩
    · rw [hb]; exact List.nodup_nil
    · rw [hi]; exact List.nodup_nil
    · intro a ha; rw [hb] at ha; simp [Reader.mk0] at ha
    · intro a ha; rw [hi] at ha; simp [Reader.mk0] at ha
    · intro a h1; rw [hb] at h1; simp [Reader.mk0] at h1
  have hinv := PartInv_applyOps _ ops hops h0
  obtain ⟨-, -, -, -, hdisj⟩ := hinv
  refine ⟨hdisj, ?_⟩
  intro a _
  by_cases h1 : a ∈ (applyOps (initAxes (Reader.mk0 ms) inits) ops)._bundle_axes
  · exact Or.inl ⟨h1, fun h2 => hdisj a ⟨h1, h2⟩⟩
  · by_cases h2 : a ∈ (applyOps (initAxes (Reader.mk0 ms) inits) ops)._iter_axes
    · exact Or.inr (Or.inl ⟨h2, h1⟩)
    · exact Or.inr (Or.inr ⟨h1, h2⟩)

/-- Witness for the amended C4 with one duplicate-free assignment. -/
theorem C4_partition_amended_witness :
    (∀ op ∈ [ConfigOp.setIter ["y"]], opValuesNodup op) ∧
    axesDisjoint (applyOps (initAxes (Reader.mk0 methodsYX) [("y", 2)])
      [ConfigOp.setIter ["y"]]) := by
  have hops : ∀ op ∈ [ConfigOp.setIter ["y"]], opValuesNodup op := by
    intro op hop
    simp only [List.mem_singleton] at hop
    subst hop
    show (["y"] : List Axis).Nodup
    decide
  exact ⟨hops,
    (C4_partition_amended methodsYX [("y", 2)] [ConfigOp.setIter ["y"]] hops).1⟩

/-- **C9**: assigning `bundle_axes` recomputes the stored synthesized
get-frame callable (it becomes exactly the planner result for the new
value), while assigning `iter_axes` or `default_coords` leaves the
stored callable unchanged. -/
theorem C9_replan_only_on_bundle_axes (r : Reader) (v : List Axis)
    (w : List (Axis × Nat)) (hb : (r.set_bundle_axes v).2 = none) :
    ((r.set_iter_axes v).1)._get_frame_wrapped = r._get_frame_wrapped ∧
    ((r.set_default_coords w).1)._get_frame_wrapped = r._get_frame_wrapped ∧
    ((r.set_bundle_axes v).1)._get_frame_wrapped =
      _make_get_frame v r.methods r.sizeOfAx := by
  refine ⟨?_, ?_, ?_⟩
  · unfold Reader.set_iter_axes
    dsimp only
    split
    · rfl
    · rfl
  · unfold Reader.set_default_coords
    dsimp only
    split
    · rfl
    · rfl
  · unfold Reader.set_bundle_axes at hb ⊢
    dsimp only at hb ⊢
    split at hb
    · simp at hb
    · split at hb
      · simp at hb
      · split at hb
        · rename_i h1 h2 x gf heq
          rw [if_neg h1, if_neg h2]
          exact (show _make_get_frame v r.methods r.sizeOfAx = some gf
            from heq).symm
        · simp at hb

/-- Witness for C9 on the concrete reader. -/
theorem C9_replan_only_on_bundle_axes_witness :
    (readerYXT.set_bundle_axes ["y", "x"]).2 = none ∧
    ((readerYXT.set_iter_axes ["t"]).1)._get_frame_wrapped =
      readerYXT._get_frame_wrapped :=
  ⟨rfl, (C9_replan_only_on_bundle_axes readerYXT ["t"] [] (by rfl)).1⟩

/-- **C10**: every configuration setter validates before mutating: given
a value containing an unregistered axis name (or, for `_init_axis`, an
already-registered name) it raises and returns the reader state exactly
unchanged — sizes, default coordinates, the bundle/iter partition and
the cached synthesized callable included. -/
theorem C10_config_error_atomicity (r : Reader) :
    (∀ v k, k ∈ v → r._sizes.lookup k = none →
      r.set_bundle_axes v = (r, some Err.valueError)) ∧
    (∀ v k, k ∈ v → r._sizes.lookup k = none →
      r.set_iter_axes v = (r, some Err.valueError)) ∧
    (∀ w k, k ∈ w.map Prod.fst → r._sizes.lookup k = none →
      r.set_default_coords w = (r, some Err.valueError)) ∧
    (∀ name size d, (r._sizes.lookup name).isSome →
      r.init_axis name size d = (r, some Err.valueError)) := by
  refine ⟨?_, ?_, ?_, ?_⟩
  · intro v k hk hnone
    unfold Reader.set_bundle_axes
    dsimp only
    split
    · rfl
    · rename_i hcon
      exact absurd (List.ne_nil_of_mem
        (List.mem_filter.mpr ⟨hk, by simp [hnone]⟩)) hcon
  · intro v k hk hnone
    unfold Reader.set_iter_axes
    dsimp only
    split
    · rfl
    · rename_i hcon
      exact absurd (List.ne_nil_of_mem
        (List.mem_filter.mpr ⟨hk, by simp [hnone]⟩)) hcon
  · intro w k hk hnone
    unfold Reader.set_default_coords
    dsimp only
    split
    · rfl
    · rename_i hcon
      exact absurd (List.ne_nil_of_mem
        (List.mem_filter.mpr ⟨hk, by simp [hnone]⟩)) hcon
  · intro name size d hsome
    unfold Reader.init_axis
    split
    · rfl
    · rename_i hcon
      simp [hsome] at hcon

/-- Witness for C10: an unregistered axis name is rejected atomically. -/
theorem C10_config_error_atomicity_witness :
    readerYXT._sizes.lookup "q" = none ∧
    readerYXT.set_bundle_axes ["q"] = (readerYXT, some Err.valueError) := by
  have h : readerYXT._sizes.lookup "q" = none := rfl
  exact ⟨h, (C10_config_error_atomicity readerYXT).1 ["q"] "q" (by simp) h⟩

/-! ### Metadata merge lemmas (C8) -/

/-- The metadata component of the `_bundle` loop collects exactly the
metadata of the sub-calls that produced any, in call order. -/
theorem bundleFold_md (gf : GFrame) (to_iter : List Axis) (ind : Coords)
    (L : List (List Nat)) :
    ∀ acc : NDArr × List Md × List Coords,
      (L.foldl (bundleStep gf to_iter ind) acc).2.1 =
        acc.2.1 ++ L.filterMap
          (fun t => (gf (overrideC ind to_iter t)).1.metadata) := by
  induction L with
  | nil => intro acc; simp
  | cons t rest ih =>
    intro acc
    simp only [List.foldl_cons, List.filterMap_cons]
    rw [ih]
    unfold bundleStep
    cases hmd : (gf (overrideC ind to_iter t)).1.metadata with
    | some m => simp [hmd, List.append_assoc]
    | none => simp [hmd]

/-- The trace component of the `_bundle` loop concatenates the traces of
the sub-calls in call order. -/
theorem bundleFold_trace (gf : GFrame) (to_iter : List Axis) (ind : Coords)
    (L : List (List Nat)) :
    ∀ acc : NDArr × List Md × List Coords,
      (L.foldl (bundleStep gf to_iter ind) acc).2.2 =
        acc.2.2 ++ L.flatMap
          (fun t => (gf (overrideC ind to_iter t)).2) := by
  induction L with
  | nil => intro acc; simp
  | cons t rest ih =>
    intro acc
    simp only [List.foldl_cons, List.flatMap_cons]
    rw [ih]
    unfold bundleStep
    cases hmd : (gf (overrideC ind to_iter t)).1.metadata with
    | some m => simp [hmd, List.append_assoc]
    | none => simp [hmd, List.append_assoc]

/-- The shape of the output array is the preallocated shape, whatever
the loop writes. -/
theorem bundleFold_shape (gf : GFrame) (to_iter : List Axis) (ind : Coords)
    (L : List (List Nat)) :
    ∀ acc : NDArr × List Md × List Coords,
      (L.foldl (bundleStep gf to_iter ind) acc).1.shape = acc.1.shape := by
  induction L with
  | nil => intro acc; rfl
  | cons t rest ih =>
    intro acc
    simp only [List.foldl_cons]
    rw [ih]
    rfl

theorem length_filterMap_eq_iff {α β : Type} (f : α → Option β)
    (l : List α) :
    (l.filterMap f).length = l.length ↔ ∀ x ∈ l, (f x).isSome := by
  induction l with
  | nil => simp
  | cons x rest ih =>
    cases hf : f x with
    | some b => simp [List.filterMap_cons, hf, ih]
    | none =>
      simp only [List.filterMap_cons, hf, List.length_cons]
      have hle := List.length_filterMap_le f rest
      constructor
      · intro h; omega
      · intro h
        have := h x (by simp)
        rw [hf] at this
        simp at this

/-- The per-key result of the metadata merge: `none` models the
`KeyError` path (key dropped), otherwise collapse identical values to
one value or stack them into an array shaped like the iteration axes. -/
def mergeKey (md_list : List Md) (shape : List Nat) (k : String) :
    Option MdVal :=
  match lookupAll md_list k with
  | none => none
  | some vals =>
    some (if MdVal.beqL vals.tail vals.dropLast then vals.headD (.int 0)
          else MdVal.arr vals shape)

theorem propagate_foldl_char (md_list : List Md) (shape : List Nat)
    (keys : List String) :
    ∀ acc1 : Md, ∀ acc2 : List String,
    keys.foldl (fun acc k =>
      match lookupAll md_list k with
      | none => (acc.1, acc.2 ++ [k])
      | some vals =>
        if MdVal.beqL vals.tail vals.dropLast then
          (acc.1 ++ [(k, vals.headD (.int 0))], acc.2)
        else
          (acc.1 ++ [(k, MdVal.arr vals shape)], acc.2)) (acc1, acc2) =
    (acc1 ++ keys.filterMap
       (fun k => (mergeKey md_list shape k).map (fun v => (k, v))),
     acc2 ++ keys.filter
       (fun k => (lookupAll md_list k).isNone)) := by
  induction keys with
  | nil => intro acc1 acc2; simp
  | cons k ks ih =>
    intro acc1 acc2
    simp only [List.foldl_cons, List.filterMap_cons, List.filter_cons]
    cases hm : lookupAll md_list k with
    | none =>
      have hmk : mergeKey md_list shape k = none := by
        unfold mergeKey
        rw [hm]
      rw [ih]
      simp [hmk, hm, List.append_assoc]
    | some vals =>
      have hmk0 : mergeKey md_list shape k = some
          (if MdVal.beqL vals.tail vals.dropLast then vals.headD (.int 0)
           else MdVal.arr vals shape) := by
        unfold mergeKey
        rw [hm]
      cases heqb : MdVal.beqL vals.tail vals.dropLast with
      | true =>
        simp only [heqb, if_true] at hmk0
        rw [ih]
        simp [hmk0, hm, heqb, List.append_assoc]
      | false =>
        simp only [heqb, Bool.false_eq_true, if_false] at hmk0
        rw [ih]
        simp [hmk0, hm, heqb, List.append_assoc]

/-- Closed form of `propagate_metadata` for a nonempty metadata list. -/
theorem propagate_metadata_eq (md0 : Md) (rest : List Md)
    (shape : List Nat) :
    propagate_metadata (md0 :: rest) shape =
      ((md0.map Prod.fst).filterMap
         (fun k => (mergeKey (md0 :: rest) shape k).map (fun v => (k, v))),
       (md0.map Prod.fst).filter
         (fun k => (lookupAll (md0 :: rest) k).isNone)) := by
  unfold propagate_metadata
  dsimp only
  rw [propagate_foldl_char (md0 :: rest) shape (md0.map Prod.fst) [] []]
  simp

theorem lookup_eq_none_of_keys {β : Type} (l : List (String × β))
    (k : String) (h : ∀ p ∈ l, p.1 ≠ k) : l.lookup k = none := by
  induction l with
  | nil => rfl
  | cons p rest ih =>
    obtain ⟨a, v⟩ := p
    have ha : a ≠ k := h (a, v) (by simp)
    have hka : (k == a) = false := by
      simp [Ne.symm ha]
    simp only [List.lookup, hka]
    exact ih (fun q hq => h q (by simp [hq]))

theorem lookup_filterMap_keys (keys : List String)
    (f : String → Option MdVal) (k : String) (hnd : keys.Nodup)
    (hk : k ∈ keys) :
    (keys.filterMap (fun k2 => (f k2).map (fun v => (k2, v)))).lookup k
      = f k := by
  induction keys with
  | nil => simp at hk
  | cons k0 ks ih =>
    simp only [List.filterMap_cons]
    rcases List.mem_cons.mp hk with rfl | hk2
    · cases hf : f k with
      | some v =>
        simp [List.lookup]
      | none =>
        show (ks.filterMap (fun k2 => (f k2).map (fun v => (k2, v)))).lookup k
          = none
        apply lookup_eq_none_of_keys
        intro p hp
        obtain ⟨k2, hk2mem, hk2eq⟩ := List.mem_filterMap.mp hp
        cases hfk2 : f k2 with
        | some v2 =>
          rw [hfk2] at hk2eq
          simp only [Option.map] at hk2eq
          injection hk2eq with hk2eq
          intro hcon
          apply (List.nodup_cons.mp hnd).1
          have hk2k : k2 = k := by
            rw [← hk2eq] at hcon
            exact hcon
          exact hk2k ▸ hk2mem
        | none =>
          rw [hfk2] at hk2eq
          simp at hk2eq
    · have hne : k ≠ k0 := by
        intro hcon
        apply (List.nodup_cons.mp hnd).1
        rw [← hcon]
        exact hk2
      cases hf : f k0 with
      | some v =>
        have hka : (k == k0) = false := by simp [hne]
        show List.lookup k ((k0, v) ::
          ks.filterMap (fun k2 => (f k2).map (fun v => (k2, v)))) = f k
        simp only [List.lookup, hka]
        exact ih (List.nodup_cons.mp hnd).2 hk2
      | none =>
        exact ih (List.nodup_cons.mp hnd).2 hk2

theorem lookup_filterMap_not_mem (keys : List String)
    (f : String → Option MdVal) (k : String) (hk : k ∉ keys) :
    (keys.filterMap (fun k2 => (f k2).map (fun v => (k2, v)))).lookup k
      = none := by
  apply lookup_eq_none_of_keys
  intro p hp
  obtain ⟨k2, hk2mem, hk2eq⟩ := List.mem_filterMap.mp hp
  cases hfk2 : f k2 with
  | some v2 =>
    rw [hfk2] at hk2eq
    simp only [Option.map] at hk2eq
    injection hk2eq with hk2eq
    intro hcon
    have hk2k : k2 = k := by
      rw [← hk2eq] at hcon
      exact hcon
    exact hk (hk2k ▸ hk2mem)
  | none =>
    rw [hfk2] at hk2eq
    simp at hk2eq

theorem beqL_int_iff (l1 l2 : List MdVal)
    (h : ∀ x ∈ l1, ∃ c, x = MdVal.int c) :
    MdVal.beqL l1 l2 = true ↔ l1 = l2 := by
  induction l1 generalizing l2 with
  | nil => cases l2 <;> simp [MdVal.beqL]
  | cons x xs ih =>
    cases l2 with
    | nil => simp [MdVal.beqL]
    | cons y ys =>
      obtain ⟨c, rfl⟩ := h x (by simp)
      have hxs : ∀ z ∈ xs, ∃ c2, z = MdVal.int c2 :=
        fun z hz => h z (List.mem_cons_of_mem _ hz)
      have ihr := ih ys hxs
      cases y with
      | int d =>
        simp only [MdVal.beqL, MdVal.beq, Bool.and_eq_true, beq_iff_eq]
        rw [ihr]
        constructor
        · rintro ⟨rfl, rfl⟩; rfl
        · intro hcon
          injection hcon with h1 h2
          injection h1 with h1
          exact ⟨h1, h2⟩
      | arr vs sh =>
        simp [MdVal.beqL, MdVal.beq]

/-- The metadata attached by `_bundle` to its output frame, in closed
form: present iff the number of collected metadata dictionaries equals
the number of loop iterations, and then equal to the merge result. -/
theorem bundle_metadata_eq (gf : GFrame) (expected to_iter : List Axis)
    (sizes : Axis → Nat) (ind : Coords) :
    ((_bundle gf expected to_iter sizes).1 ind).1.metadata =
      (if ((productList (((to_iter ++ expected).map sizes).take
              to_iter.length)).filterMap
            (fun t => (gf (overrideC ind to_iter t)).1.metadata)).length =
          (((to_iter ++ expected).map sizes).take to_iter.length).prod
       then some (propagate_metadata
          ((productList (((to_iter ++ expected).map sizes).take
              to_iter.length)).filterMap
            (fun t => (gf (overrideC ind to_iter t)).1.metadata))
          (((to_iter ++ expected).map sizes).take to_iter.length)).1
       else none) := by
  unfold _bundle
  dsimp only
  rw [bundleFold_md gf to_iter ind
    (productList (((to_iter ++ expected).map sizes).take to_iter.length))
    (NDArr.empty ((to_iter ++ expected).map sizes), [], [])]
  simp

/-- **C8** [amended]: in the iterate-to-bundle strategy the combined
result carries merged metadata iff every sub-call produced metadata; per
key of the first sub-call dictionary, identical values collapse to the
single value, differing values are stacked into an array shaped like the
iterated axes, and a key missing from a later sub-call is dropped with a
warning; a key absent from the first sub-call dictionary is dropped
silently; if any sub-call lacks metadata the result carries none. -/
theorem C8_metadata_merge_amended
    (gf : GFrame) (expected to_iter : List Axis) (sizes : Axis → Nat)
    (ind : Coords) (hpos : ∀ a ∈ to_iter, 0 < sizes a) :
    (((_bundle gf expected to_iter sizes).1 ind).1.metadata.isSome ↔
      ∀ t ∈ productList (((to_iter ++ expected).map sizes).take
          to_iter.length),
        ((gf (overrideC ind to_iter t)).1.metadata).isSome) ∧
    ((∀ t ∈ productList (((to_iter ++ expected).map sizes).take
          to_iter.length),
        ((gf (overrideC ind to_iter t)).1.metadata).isSome) →
      ((_bundle gf expected to_iter sizes).1 ind).1.metadata =
        some (propagate_metadata
          ((productList (((to_iter ++ expected).map sizes).take
              to_iter.length)).filterMap
            (fun t => (gf (overrideC ind to_iter t)).1.metadata))
          (((to_iter ++ expected).map sizes).take to_iter.length)).1) ∧
    (∀ (md0 : Md) (rest : List Md) (shape2 : List Nat) (k : String),
      (md0.map Prod.fst).Nodup →
      ((k ∉ md0.map Prod.fst →
        (propagate_metadata (md0 :: rest) shape2).1.lookup k = none ∧
        k ∉ (propagate_metadata (md0 :: rest) shape2).2) ∧
       (k ∈ md0.map Prod.fst → lookupAll (md0 :: rest) k = none →
        (propagate_metadata (md0 :: rest) shape2).1.lookup k = none ∧
        k ∈ (propagate_metadata (md0 :: rest) shape2).2) ∧
       (∀ c : Int, k ∈ md0.map Prod.fst →
        lookupAll (md0 :: rest) k =
          some (List.replicate (md0 :: rest).length (MdVal.int c)) →
        (propagate_metadata (md0 :: rest) shape2).1.lookup k =
          some (MdVal.int c)) ∧
       (∀ vals : List MdVal, k ∈ md0.map Prod.fst →
        lookupAll (md0 :: rest) k = some vals →
        (∀ x ∈ vals, ∃ c, x = MdVal.int c) →
        vals.tail ≠ vals.dropLast →
        (propagate_metadata (md0 :: rest) shape2).1.lookup k =
          some (MdVal.arr vals shape2)))) := by
  have hlen := productList_length
    (((to_iter ++ expected).map sizes).take to_iter.length)
  refine ⟨?_, ?_, ?_⟩
  · rw [bundle_metadata_eq]
    by_cases hg : ((productList (((to_iter ++ expected).map sizes).take
          to_iter.length)).filterMap
        (fun t => (gf (overrideC ind to_iter t)).1.metadata)).length =
        (((to_iter ++ expected).map sizes).take to_iter.length).prod
    · simp only [hg, if_true, Option.isSome_some, true_iff]
      exact (length_filterMap_eq_iff _ _).mp (hg.trans hlen.symm)
    · simp only [hg]
      simp only [Bool.false_eq_true, if_false, Option.isSome_none]
      constructor
      · intro hcon; exact hcon.elim
      · intro hall
        exact absurd (((length_filterMap_eq_iff _ _).mpr hall).trans hlen)
          hg
  · intro hall
    rw [bundle_metadata_eq]
    rw [if_pos (((length_filterMap_eq_iff _ _).mpr hall).trans hlen)]
  · intro md0 rest shape2 k hnd
    rw [propagate_metadata_eq]
    dsimp only
    refine ⟨?_, ?_, ?_, ?_⟩
    · intro hk
      refine ⟨lookup_filterMap_not_mem _ _ _ hk, ?_⟩
      intro hmem
      exact hk (List.mem_of_mem_filter hmem)
    · intro hk hnone
      have hmk : mergeKey (md0 :: rest) shape2 k = none := by
        unfold mergeKey
        rw [hnone]
      constructor
      · rw [lookup_filterMap_keys _ _ _ hnd hk, hmk]
      · exact List.mem_filter.mpr ⟨hk, by simp [hnone]⟩
    · intro c hk hvals
      have hmk : mergeKey (md0 :: rest) shape2 k = some (MdVal.int c) := by
        unfold mergeKey
        rw [hvals]
        dsimp only
        have h1 : (List.replicate (md0 :: rest).length (MdVal.int c)).tail =
            List.replicate rest.length (MdVal.int c) := rfl
        have h2 : (List.replicate (md0 :: rest).length
            (MdVal.int c)).dropLast =
            List.replicate rest.length (MdVal.int c) := by
          rw [show (md0 :: rest).length = rest.length + 1 from rfl,
            List.replicate_succ' rest.length (MdVal.int c),
            List.dropLast_concat]
        rw [h1, h2]
        have hb : MdVal.beqL (List.replicate rest.length (MdVal.int c))
            (List.replicate rest.length (MdVal.int c)) = true := by
          rw [beqL_int_iff _ _ (fun x hx => ⟨c, List.eq_of_mem_replicate hx⟩)]
        rw [hb]
        rfl
      rw [lookup_filterMap_keys _ _ _ hnd hk, hmk]
    · intro vals hk hvals hints hne
      have hmk : mergeKey (md0 :: rest) shape2 k =
          some (MdVal.arr vals shape2) := by
        unfold mergeKey
        rw [hvals]
        dsimp only
        have hb : MdVal.beqL vals.tail vals.dropLast = false := by
          rcases Bool.eq_false_or_eq_true
            (MdVal.beqL vals.tail vals.dropLast) with h | h
          · exact absurd ((beqL_int_iff vals.tail vals.dropLast
              (fun x hx => hints x (List.tail_subset vals hx))).mp h) hne
          · exact h
        rw [hb]
        simp
      rw [lookup_filterMap_keys _ _ _ hnd hk, hmk]

/-- A native method whose metadata is `{}` for `t=0` and `{'e': 5}` for
`t=1`. -/
def mdNative : Native := fun ind =>
  { arr := { shape := [], data := fun _ => 0 },
    metadata := some (if ind "t" = 0 then [] else [("e", MdVal.int 5)]),
    frame_no := none }

/-- Sizes for the metadata counterexample: one axis `t` of size 2. -/
def szT : Axis → Nat := fun a => if a = "t" then 2 else 0

/-- **C8** [counterexample]: two sub-calls, both with metadata; the key
`'e'` is missing from the first sub-call only.  The merged result drops
`'e'` — but no warning fires (the merge only iterates the keys of the
first dictionary), contradicting the claim that a key missing from some
(but not all) sub-calls is dropped *with a warning*. -/
theorem C8_counterexample :
    (propagate_metadata [[], [("e", MdVal.int 5)]] [2]).1.lookup "e"
      = none ∧
    (propagate_metadata [[], [("e", MdVal.int 5)]] [2]).2 = [] ∧
    ((_bundle (traced mdNative) [] ["t"] szT).1 (fun _ => 0)).1.metadata
      = some [] :=
  ⟨rfl, rfl, rfl⟩

/-- Witness for the amended C8 on a concrete two-call bundle. -/
theorem C8_metadata_merge_amended_witness :
    (∀ a ∈ ["t"], 0 < szT a) ∧
    (((_bundle (traced mdNative) [] ["t"] szT).1 (fun _ => 0)).1.metadata.isSome ↔
      ∀ t ∈ productList ((((["t"] : List Axis) ++ []).map szT).take 1),
        (((traced mdNative) (overrideC (fun _ => 0) ["t"] t)).1.metadata).isSome) := by
  have hpos : ∀ a ∈ ["t"], 0 < szT a := by
    intro a ha
    simp only [List.mem_singleton] at ha
    subst ha
    decide
  exact ⟨hpos,
    (C8_metadata_merge_amended (traced mdNative) [] ["t"] szT
      (fun _ => 0) hpos).1⟩

/-! ### `_drop` ordering lemmas (C6) and planner shape lemmas (C1, C7) -/

theorem map_getD_range {α : Type} (l : List α) (d : α) :
    (List.range l.length).map (fun i => l.getD i d) = l := by
  apply List.ext_getElem
  · simp
  · intro i h1 h2
    simp only [List.getElem_map, List.getElem_range]
    rw [List.getD_eq_getElem]

theorem drop_sorted_names_perm (expected td : List Axis) :
    (drop_sorted_names expected td).Perm td := by
  unfold drop_sorted_names
  have hlen : (td.map (fun a => expected.indexOf a)).length = td.length := by
    simp
  have hperm : ((argsort (td.map (fun a => expected.indexOf a))).reverse).Perm
      (List.range td.length) := by
    exact (List.reverse_perm _).trans (by
      have := argsort_perm_range (td.map (fun a => expected.indexOf a))
      rwa [hlen] at this)
  have hmap := hperm.map (fun i => td.getD i "")
  rwa [map_getD_range td ""] at hmap

theorem drop_sorted_names_mem (expected td : List Axis) (a : Axis) :
    a ∈ drop_sorted_names expected td ↔ a ∈ td :=
  (drop_sorted_names_perm expected td).mem_iff

theorem reverse_argsort_mem_lt (td : List Axis) (expected : List Axis)
    (i : Nat)
    (hi : i ∈ (argsort (td.map (fun a => expected.indexOf a))).reverse) :
    i < td.length := by
  have hlen : (td.map (fun a => expected.indexOf a)).length = td.length := by
    simp
  have hmem := (((List.reverse_perm _).trans
    (argsort_perm_range (td.map (fun a => expected.indexOf a)))).mem_iff).mp hi
  rw [hlen] at hmem
  exact List.mem_range.mp hmem

/-- The positions `_drop` erases are exactly the `expected_axes` indices
of the (reordered) names it erases. -/
theorem drop_sorted_axes_eq_map (expected td : List Axis) :
    drop_sorted_axes expected td =
      (drop_sorted_names expected td).map (fun a => expected.indexOf a) := by
  unfold drop_sorted_axes drop_sorted_names
  rw [List.map_map]
  apply List.map_congr_left
  intro i hi
  have hilt : i < td.length := reverse_argsort_mem_lt td expected i hi
  simp only [Function.comp_apply]
  rw [List.getD_eq_getElem _ _ (by simpa using hilt),
    List.getD_eq_getElem _ _ hilt]
  simp

/-- The positions `_drop` erases are strictly descending: later
`np.take` calls use indices that are still valid. -/
theorem drop_sorted_axes_desc (expected td : List Axis)
    (hnd : (td.map (fun a => expected.indexOf a)).Nodup) :
    (drop_sorted_axes expected td).Pairwise (fun x y => y < x) := by
  unfold drop_sorted_axes
  rw [List.pairwise_map]
  have h1 : ((argsort (td.map (fun a => expected.indexOf a))).reverse).Pairwise
      (fun i j => (td.map (fun a => expected.indexOf a)).getD j 0 ≤
        (td.map (fun a => expected.indexOf a)).getD i 0) := by
    rw [List.pairwise_reverse]
    exact argsort_pairwise (td.map (fun a => expected.indexOf a))
  have h2 : ((argsort (td.map (fun a => expected.indexOf a))).reverse).Nodup := by
    exact (((List.reverse_perm _).trans
      (argsort_perm_range _))).nodup_iff.mpr (List.nodup_range _)
  have h3 := h1.and h2
  apply h3.imp_of_mem
  intro a b ha hb hab
  obtain ⟨hle, hne⟩ := hab
  have halt : a < td.length := reverse_argsort_mem_lt td expected a ha
  have hblt : b < td.length := reverse_argsort_mem_lt td expected b hb
  have hmaplen : (td.map (fun x => expected.indexOf x)).length = td.length := by
    simp
  rw [List.getD_eq_getElem _ _ (by rw [hmaplen]; exact hblt),
    List.getD_eq_getElem _ _ (by rw [hmaplen]; exact halt)] at hle ⊢
  rcases Nat.lt_or_ge ((td.map (fun x => expected.indexOf x))[b])
    ((td.map (fun x => expected.indexOf x))[a]) with hlt | hge
  · exact hlt
  · exfalso
    apply hne
    exact hnd.getElem_inj_iff.mp (Nat.le_antisymm hle hge).symm

/-- The native method of spec scenario 4: `('c','y','x')`, returning a
3-d array with data `D`. -/
def dNative (D : List Nat → Int) : Native := fun _ =>
  { arr := { shape := [3, 64, 128], data := D },
    metadata := none, frame_no := none }

/-- Reader of spec scenario 4: native `('c','y','x')`, sizes `c=3`,
`y=64`, `x=128`, `default_coords['c'] = 1`, `bundle_axes = ['y','x']`. -/
def readerC6 (D : List Nat → Int) : Reader :=
  ((((initAxes (Reader.mk0 [(["c", "y", "x"], dNative D)])
      [("c", 3), ("y", 64), ("x", 128)]).set_default_coords
        [("c", 1)]).1).set_bundle_axes ["y", "x"]).1

set_option maxHeartbeats 2000000 in
/-- **C6**: the `_drop` strategy erases superfluous axes at positions in
strictly descending order (so earlier indices stay valid), each position
being the `expected_axes` index of the dropped name; the synthesized
function calls the native method exactly once; and on the concrete
scenario — native `('c','y','x')` with `c=3,y=64,x=128`,
`bundle_axes=['y','x']`, `default_coords={'c':1}` — one call selects
channel 1 and yields shape `(64,128)`. -/
theorem C6_drop_strategy (expected td : List Axis)
    (hnd : (td.map (fun a => expected.indexOf a)).Nodup)
    (f : Native) (ind : Coords) (D : List Nat → Int) :
    ((drop_sorted_axes expected td).Pairwise (fun x y => y < x)) ∧
    (drop_sorted_axes expected td =
      (drop_sorted_names expected td).map (fun a => expected.indexOf a)) ∧
    (((_drop (traced f) expected td).1 ind).2 = [ind]) ∧
    (∃ fr tr, (readerC6 D).get_frame 0 = ((readerC6 D), Except.ok (fr, tr)) ∧
      fr.arr.shape = [64, 128] ∧
      tr.length = 1 ∧
      (∀ ix, fr.arr.data ix = D (1 :: ix)) ∧
      (tr.getD 0 (fun _ => 0)) "c" = 1) := by
  refine ⟨drop_sorted_axes_desc expected td hnd,
    drop_sorted_axes_eq_map expected td, rfl, ?_⟩
  refine ⟨_, _, rfl, rfl, rfl, ?_, rfl⟩
  intro ix
  rfl

/-- Witness for C6 with concrete axes and data. -/
theorem C6_drop_strategy_witness :
    ((["c"].map (fun a => (["c", "y", "x"] : List Axis).indexOf a)).Nodup) ∧
    (drop_sorted_axes ["c", "y", "x"] ["c"]).Pairwise (fun x y => y < x) := by
  have hnd : ((["c"].map
      (fun a => (["c", "y", "x"] : List Axis).indexOf a)).Nodup) := by
    decide
  exact ⟨hnd, (C6_drop_strategy ["c", "y", "x"] ["c"] hnd
    (dNative (fun _ => 0)) (fun _ => 0) (fun _ => 0)).1⟩

/-! ### Planner selection lemmas (C7, C1) -/

/-- The cost table after the three in-place `arr.sort(...)` calls of
`_make_get_frame` (stable sorts, applied in source order). -/
def planArr3 (result_axes : List Axis)
    (get_frame_dict : List (List Axis × Native)) (sizes : Axis → Nat) :
    List PlanEntry :=
  sortBy (fun x y => lexLe (x.n_iter, x.n_drop) (y.n_iter, y.n_drop))
    (sortBy (fun x y => decide (x.n_drop ≤ y.n_drop))
      (sortBy (fun x y => decide (x.n_iter ≤ y.n_iter))
        (get_frame_dict.map (mkPlanEntry result_axes sizes))))

theorem planArr3_perm (v : List Axis) (gfd : List (List Axis × Native))
    (sizes : Axis → Nat) :
    (planArr3 v gfd sizes).Perm (gfd.map (mkPlanEntry v sizes)) := by
  unfold planArr3
  exact (sortBy_perm _ _).trans ((sortBy_perm _ _).trans (sortBy_perm _ _))

theorem lexLe_total (x y : Nat × Nat) : lexLe x y = true ∨ lexLe y x = true := by
  simp only [lexLe, decide_eq_true_eq]
  omega

theorem lexLe_trans (x y z : Nat × Nat) (h1 : lexLe x y = true)
    (h2 : lexLe y z = true) : lexLe x z = true := by
  simp only [lexLe, decide_eq_true_eq] at h1 h2 ⊢
  omega

theorem lexLe_refl (x : Nat × Nat) : lexLe x x = true := by
  simp [lexLe]

/-- When no method's axis set equals the target's and, for every method,
both cost numbers are nonzero (which positive sizes guarantee), the
planner reaches the final "worst case" branch: it takes the head of the
lexicographically sorted cost table and composes `_drop`, then
`_bundle`, then `_transpose`. -/
theorem make_mixed_eq (v : List Axis) (gfd : List (List Axis × Native))
    (sizes : Axis → Nat)
    (hno : ∀ p ∈ gfd, sameSet p.1 v = false)
    (hdrop : ∀ e ∈ gfd.map (mkPlanEntry v sizes), e.n_drop ≠ 0)
    (hiter : ∀ e ∈ gfd.map (mkPlanEntry v sizes), e.n_iter ≠ 0) :
    _make_get_frame v gfd sizes =
      (match planArr3 v gfd sizes with
       | [] => none
       | e :: _ =>
          some (_transpose
            (_bundle (_drop (traced e.fn) e.axes e.to_drop).1
              (_drop (traced e.fn) e.axes e.to_drop).2 e.to_iter sizes).1
            (_bundle (_drop (traced e.fn) e.axes e.to_drop).1
              (_drop (traced e.fn) e.axes e.to_drop).2 e.to_iter sizes).2
            v)) := by
  have h1 : gfd.find? (fun p => sameSet p.1 v) = none :=
    List.find?_eq_none.mpr (fun p hp => by simp [hno p hp])
  have h2 : (sortBy (fun x y : PlanEntry => decide (x.n_iter ≤ y.n_iter))
      (gfd.map (mkPlanEntry v sizes))).find?
        (fun e => decide (e.n_drop = 0)) = none :=
    List.find?_eq_none.mpr (fun e he => by
      have hmem := ((sortBy_perm
        (fun x y : PlanEntry => decide (x.n_iter ≤ y.n_iter))
        (gfd.map (mkPlanEntry v sizes))).mem_iff).mp he
      simp only [decide_eq_true_eq]
      exact hdrop e hmem)
  have h3 : (sortBy (fun x y : PlanEntry => decide (x.n_drop ≤ y.n_drop))
      (sortBy (fun x y : PlanEntry => decide (x.n_iter ≤ y.n_iter))
        (gfd.map (mkPlanEntry v sizes)))).find?
        (fun e => decide (e.n_iter = 0)) = none :=
    List.find?_eq_none.mpr (fun e he => by
      have hmem := ((sortBy_perm
        (fun x y : PlanEntry => decide (x.n_drop ≤ y.n_drop)) _).mem_iff).mp he
      have hmem2 := ((sortBy_perm
        (fun x y : PlanEntry => decide (x.n_iter ≤ y.n_iter))
        (gfd.map (mkPlanEntry v sizes))).mem_iff).mp hmem
      simp only [decide_eq_true_eq]
      exact hiter e hmem2)
  unfold _make_get_frame
  rw [h1]
  dsimp only
  rw [h2]
  dsimp only
  rw [h3]
  rfl

/-- **C7**: when every native method both misses some target axes and
carries superfluous axes (and all sizes involved are positive), the
planner selects the lexicographic minimizer of `(n_iter, n_drop)` —
fewest extra reads first, then fewest dropped frames — and composes the
strategies drop-first, then iterate-to-bundle, then transpose. -/
theorem C7_mixed_strategy (gfd : List (List Axis × Native)) (v : List Axis)
    (sizes : Axis → Nat)
    (hne : gfd ≠ [])
    (hposv : ∀ a ∈ v, 0 < sizes a)
    (hposm : ∀ p ∈ gfd, ∀ a ∈ p.1, 0 < sizes a)
    (hmiss : ∀ p ∈ gfd, ∃ a ∈ v, a ∉ p.1)
    (hextra : ∀ p ∈ gfd, ∃ a ∈ p.1, a ∉ v) :
    ∃ e rest, planArr3 v gfd sizes = e :: rest ∧
      e ∈ gfd.map (mkPlanEntry v sizes) ∧
      (∀ p ∈ gfd, lexLe (e.n_iter, e.n_drop)
        ((mkPlanEntry v sizes p).n_iter, (mkPlanEntry v sizes p).n_drop)
        = true) ∧
      _make_get_frame v gfd sizes =
        some (_transpose
          (_bundle (_drop (traced e.fn) e.axes e.to_drop).1
            (_drop (traced e.fn) e.axes e.to_drop).2 e.to_iter sizes).1
          (_bundle (_drop (traced e.fn) e.axes e.to_drop).1
            (_drop (traced e.fn) e.axes e.to_drop).2 e.to_iter sizes).2
          v) := by
  have hno : ∀ p ∈ gfd, sameSet p.1 v = false := by
    intro p hp
    obtain ⟨a, hav, hap⟩ := hmiss p hp
    unfold sameSet
    have : v.all (fun x => p.1.contains x) = false := by
      rw [List.all_eq_false]
      exact ⟨a, hav, by simp [hap]⟩
    rw [this]
    simp
  have hdrop : ∀ e ∈ gfd.map (mkPlanEntry v sizes), e.n_drop ≠ 0 := by
    intro e he
    obtain ⟨p, hp, rfl⟩ := List.mem_map.mp he
    unfold mkPlanEntry
    dsimp only
    apply Nat.pos_iff_ne_zero.mp
    apply List.prod_pos
    intro b hb
    obtain ⟨c, hc, rfl⟩ := List.mem_map.mp hb
    exact hposm p hp c (List.mem_of_mem_filter (List.mem_dedup.mp hc))
  have hiter : ∀ e ∈ gfd.map (mkPlanEntry v sizes), e.n_iter ≠ 0 := by
    intro e he
    obtain ⟨p, hp, rfl⟩ := List.mem_map.mp he
    unfold mkPlanEntry
    dsimp only
    apply Nat.pos_iff_ne_zero.mp
    apply List.prod_pos
    intro b hb
    obtain ⟨c, hc, rfl⟩ := List.mem_map.mp hb
    exact hposv c (List.mem_of_mem_filter (List.mem_dedup.mp hc))
  have hperm := planArr3_perm v gfd sizes
  have hlen : (planArr3 v gfd sizes).length = gfd.length := by
    rw [hperm.length_eq, List.length_map]
  cases harr : planArr3 v gfd sizes with
  | nil =>
    exfalso
    rw [harr] at hlen
    exact hne (List.eq_nil_of_length_eq_zero hlen.symm)
  | cons e rest =>
    refine ⟨e, rest, rfl, ?_, ?_, ?_⟩
    · exact (hperm.mem_iff).mp (by rw [harr]; simp)
    · intro p hp
      have hkey := sortBy_head_min
        (fun x y : PlanEntry => lexLe (x.n_iter, x.n_drop) (y.n_iter, y.n_drop))
        (fun x y => lexLe_total _ _)
        (fun x y z => lexLe_trans _ _ _)
        (fun x => lexLe_refl _) _ e rest harr
      apply hkey
      have hperm2 := (sortBy_perm
        (fun x y : PlanEntry => decide (x.n_drop ≤ y.n_drop))
        (sortBy (fun x y : PlanEntry => decide (x.n_iter ≤ y.n_iter))
          (gfd.map (mkPlanEntry v sizes)))).trans
        (sortBy_perm (fun x y : PlanEntry => decide (x.n_iter ≤ y.n_iter))
          (gfd.map (mkPlanEntry v sizes)))
      exact (hperm2.mem_iff).mpr (List.mem_map.mpr ⟨p, hp, rfl⟩)
    · rw [make_mixed_eq v gfd sizes hno hdrop hiter, harr]

/-- Witness for C7: two native methods, each missing one target axis and
carrying one superfluous axis. -/
def gfd7 : List (List Axis × Native) :=
  [ (["a", "c"], constNative [2, 4]), (["b", "c"], constNative [3, 4]) ]

/-- Sizes for the C7 witness: `a=2`, `b=3`, `c=4`. -/
def sz7 : Axis → Nat := fun x =>
  if x = "a" then 2 else if x = "b" then 3 else if x = "c" then 4 else 1

theorem C7_mixed_strategy_witness :
    (gfd7 ≠ []) ∧
    (∀ p ∈ gfd7, ∃ a ∈ p.1, a ∉ (["a", "b"] : List Axis)) ∧
    (∃ e rest, planArr3 ["a", "b"] gfd7 sz7 = e :: rest ∧
      e ∈ gfd7.map (mkPlanEntry ["a", "b"] sz7) ∧
      (∀ p ∈ gfd7, lexLe (e.n_iter, e.n_drop)
        ((mkPlanEntry ["a", "b"] sz7 p).n_iter,
         (mkPlanEntry ["a", "b"] sz7 p).n_drop) = true) ∧
      _make_get_frame ["a", "b"] gfd7 sz7 =
        some (_transpose
          (_bundle (_drop (traced e.fn) e.axes e.to_drop).1
            (_drop (traced e.fn) e.axes e.to_drop).2 e.to_iter sz7).1
          (_bundle (_drop (traced e.fn) e.axes e.to_drop).1
            (_drop (traced e.fn) e.axes e.to_drop).2 e.to_iter sz7).2
          ["a", "b"])) := by
  have hne : gfd7 ≠ [] := by simp [gfd7]
  have hposv : ∀ a ∈ (["a", "b"] : List Axis), 0 < sz7 a := by decide
  have hposm : ∀ p ∈ gfd7, ∀ a ∈ p.1, 0 < sz7 a := by
    intro p hp
    simp only [gfd7, List.mem_cons, List.mem_singleton] at hp
    rcases hp with rfl | rfl | hp
    · decide
    · decide
    · simp at hp
  have hmiss : ∀ p ∈ gfd7, ∃ a ∈ (["a", "b"] : List Axis), a ∉ p.1 := by
    intro p hp
    simp only [gfd7, List.mem_cons, List.mem_singleton] at hp
    rcases hp with rfl | rfl | hp
    · exact ⟨"b", by decide, by decide⟩
    · exact ⟨"a", by decide, by decide⟩
    · simp at hp
  have hextra : ∀ p ∈ gfd7, ∃ a ∈ p.1, a ∉ (["a", "b"] : List Axis) := by
    intro p hp
    simp only [gfd7, List.mem_cons, List.mem_singleton] at hp
    rcases hp with rfl | rfl | hp
    · exact ⟨"c", by decide, by decide⟩
    · exact ⟨"c", by decide, by decide⟩
    · simp at hp
  exact ⟨hne, hextra,
    C7_mixed_strategy gfd7 ["a", "b"] sz7 hne hposv hposm hmiss hextra⟩

/-! ### C5: the `n_drop == 0` branch is dead code -/

/-- Methods for the C5 failing input: a subset method `('y','x')` and a
superset-with-extra method `('c','y','x','m')`. -/
def gfd5 : List (List Axis × Native) :=
  [ (["y", "x"], constNative [3, 4]),
    (["c", "y", "x", "m"], constNative [2, 3, 4, 5]) ]

/-- Sizes for the C5 failing input: `c=2`, `y=3`, `x=4`, `m=5`. -/
def sz5 : Axis → Nat := fun a =>
  if a = "c" then 2 else if a = "y" then 3 else
  if a = "x" then 4 else if a = "m" then 5 else 0

/-- **C5** [code_bug evidence]: with target `['c','y','x']`, the only
native method whose axis set is a subset of the target is `('y','x')`,
whose missing-axes size product is 2 — so the claim (and the spec's
strategy ladder) requires two iterated native calls from it.  The
synthesized function issues exactly one native call: because
`int(np.prod([]))` is 1, the `n_drop == 0` test never holds and the
planner falls through to the mixed branch, which prefers the superset
method `('c','y','x','m')` (cost `(1, 5)` beats `(2, 1)`
lexicographically). -/
theorem C5_subset_selection_dead_branch :
    ((gfd5.filter (fun p => p.1.all (fun a =>
        (["c", "y", "x"] : List Axis).contains a))).map Prod.fst)
      = [["y", "x"]] ∧
    (((["c", "y", "x"] : List Axis).filter
        (fun a => decide (¬ a ∈ (["y", "x"] : List Axis)))).map sz5).prod
      = 2 ∧
    (mkPlanEntry ["c", "y", "x"] sz5 (["y", "x"], constNative [3, 4])).n_drop
      = 1 ∧
    (Option.map (fun gf => ((gf (fun _ => 0)).2).length)
      (_make_get_frame ["c", "y", "x"] gfd5 sz5)) = some 1 ∧
    (1 : Nat) ≠ 2 := by
  refine ⟨rfl, rfl, rfl, rfl, by decide⟩

/-! ### C1: shape law -/

theorem getD_map_indexOf (expected : List Axis) (sizes : Axis → Nat)
    (a : Axis) (ha : a ∈ expected) :
    (expected.map sizes).getD (expected.indexOf a) 0 = sizes a := by
  have hlt : expected.indexOf a < expected.length :=
    List.indexOf_lt_length.mpr ha
  rw [List.getD_eq_getElem _ _ (by simpa using hlt)]
  rw [List.getElem_map]
  congr 1
  have := List.indexOf_get (l := expected) (a := a) hlt
  simpa [List.get_eq_getElem] using this

/-- `_transpose` produces arrays shaped by the desired axis order,
provided the wrapped function produces arrays shaped by the expected
axis order and every desired axis is an expected one. -/
theorem _transpose_shape (gf : GFrame) (expected desired : List Axis)
    (sizes : Axis → Nat) (ind : Coords)
    (hsub : ∀ a ∈ desired, a ∈ expected)
    (hshape : ((gf ind).1).arr.shape = expected.map sizes) :
    (((_transpose gf expected desired) ind).1).arr.shape =
      desired.map sizes := by
  unfold _transpose
  by_cases heq : expected = desired
  · rw [if_pos heq]
    rw [hshape, heq]
  · rw [if_neg heq]
    dsimp only
    unfold NDArr.transposed
    dsimp only
    rw [hshape, List.map_map]
    apply List.map_congr_left
    intro a ha
    simp only [Function.comp_apply]
    exact getD_map_indexOf expected sizes a (hsub a ha)

/-- The output of `_bundle` always has the preallocated shape. -/
theorem _bundle_out_shape (gf : GFrame) (expected to_iter : List Axis)
    (sizes : Axis → Nat) (ind : Coords) :
    (((_bundle gf expected to_iter sizes).1 ind).1).arr.shape =
      (to_iter ++ expected).map sizes := by
  unfold _bundle
  dsimp only
  rw [bundleFold_shape]
  rfl

/-- The planner always produces a function whose outputs are shaped
`[sizes[a] for a in result_axes]`, whatever branch it takes, given
duplicate-free target axes, positive sizes, and native methods honouring
their shape contract. -/
theorem make_shape (v : List Axis) (gfd : List (List Axis × Native))
    (sizes : Axis → Nat)
    (hne : gfd ≠ [])
    (hm : ∀ p ∈ gfd, ∀ ind, ((p.2 ind)).arr.shape = p.1.map sizes)
    (hpos : ∀ p ∈ gfd, ∀ a ∈ p.1, 0 < sizes a)
    (hposv : ∀ a ∈ v, 0 < sizes a) :
    ∃ gf, _make_get_frame v gfd sizes = some gf ∧
      ∀ ind, ((gf ind).1).arr.shape = v.map sizes := by
  cases hfind : gfd.find? (fun p => sameSet p.1 v) with
  | some p =>
    have hp : p ∈ gfd := List.mem_of_find?_eq_some hfind
    have hss : sameSet p.1 v = true := by
      have := List.find?_some hfind
      exact this
    have hsub : ∀ a ∈ v, a ∈ p.1 := by
      unfold sameSet at hss
      rw [Bool.and_eq_true] at hss
      intro a ha
      have := (List.all_eq_true.mp hss.2) a ha
      simpa using this
    refine ⟨_transpose (traced p.2) p.1 v, ?_, ?_⟩
    · unfold _make_get_frame
      rw [hfind]
    · intro ind
      exact _transpose_shape (traced p.2) p.1 v sizes ind hsub (hm p hp ind)
  | none =>
    have hno : ∀ p ∈ gfd, sameSet p.1 v = false := fun p hp => by
      have := List.find?_eq_none.mp hfind p hp
      simpa using this
    have hdrop : ∀ e ∈ gfd.map (mkPlanEntry v sizes), e.n_drop ≠ 0 := by
      intro e he
      obtain ⟨p, hp, rfl⟩ := List.mem_map.mp he
      unfold mkPlanEntry
      dsimp only
      apply Nat.pos_iff_ne_zero.mp
      apply List.prod_pos
      intro b hb
      obtain ⟨c, hc, rfl⟩ := List.mem_map.mp hb
      exact hpos p hp c (List.mem_of_mem_filter (List.mem_dedup.mp hc))
    have hiter : ∀ e ∈ gfd.map (mkPlanEntry v sizes), e.n_iter ≠ 0 := by
      intro e he
      obtain ⟨p, hp, rfl⟩ := List.mem_map.mp he
      unfold mkPlanEntry
      dsimp only
      apply Nat.pos_iff_ne_zero.mp
      apply List.prod_pos
      intro b hb
      obtain ⟨c, hc, rfl⟩ := List.mem_map.mp hb
      exact hposv c (List.mem_of_mem_filter (List.mem_dedup.mp hc))
    rw [make_mixed_eq v gfd sizes hno hdrop hiter]
    have hlen : (planArr3 v gfd sizes).length = gfd.length := by
      rw [(planArr3_perm v gfd sizes).length_eq, List.length_map]
    cases harr : planArr3 v gfd sizes with
    | nil =>
      exfalso
      rw [harr] at hlen
      exact hne (List.eq_nil_of_length_eq_zero hlen.symm)
    | cons e rest =>
      have hemem : e ∈ planArr3 v gfd sizes := by rw [harr]; simp
      obtain ⟨p, hp, he⟩ := List.mem_map.mp
        ((planArr3_perm v gfd sizes).mem_iff.mp hemem)
      subst he
      refine ⟨_transpose
        (_bundle (_drop (traced (mkPlanEntry v sizes p).fn)
            (mkPlanEntry v sizes p).axes (mkPlanEntry v sizes p).to_drop).1
          (_drop (traced (mkPlanEntry v sizes p).fn)
            (mkPlanEntry v sizes p).axes (mkPlanEntry v sizes p).to_drop).2
          (mkPlanEntry v sizes p).to_iter sizes).1
        (_bundle (_drop (traced (mkPlanEntry v sizes p).fn)
            (mkPlanEntry v sizes p).axes (mkPlanEntry v sizes p).to_drop).1
          (_drop (traced (mkPlanEntry v sizes p).fn)
            (mkPlanEntry v sizes p).axes (mkPlanEntry v sizes p).to_drop).2
          (mkPlanEntry v sizes p).to_iter sizes).2
        v, rfl, ?_⟩
      intro ind
      apply _transpose_shape
      · intro a ha
        show a ∈ (mkPlanEntry v sizes p).to_iter ++
          (_drop (traced (mkPlanEntry v sizes p).fn) (mkPlanEntry v sizes p).axes
            (mkPlanEntry v sizes p).to_drop).2
        rw [List.mem_append]
        by_cases hap : a ∈ p.1
        · right
          show a ∈ (mkPlanEntry v sizes p).axes.filter (fun x => decide
            (¬ x ∈ drop_sorted_names (mkPlanEntry v sizes p).axes
              (mkPlanEntry v sizes p).to_drop))
          rw [List.mem_filter]
          refine ⟨hap, ?_⟩
          simp only [decide_eq_true_eq]
          rw [drop_sorted_names_mem]
          show ¬ a ∈ (p.1.filter (fun x => decide (¬ x ∈ v))).dedup
          rw [List.mem_dedup, List.mem_filter]
          intro hcon
          have := hcon.2
          simp only [decide_eq_true_eq] at this
          exact this ha
        · left
          show a ∈ (v.filter (fun x => decide (¬ x ∈ p.1))).dedup
          rw [List.mem_dedup, List.mem_filter]
          refine ⟨ha, ?_⟩
          simp only [decide_eq_true_eq]
          exact hap
      · exact _bundle_out_shape _ _ _ sizes ind

theorem foldl_erase_id (B w : List Axis) (h : ∀ k ∈ w, k ∉ B) :
    w.foldl (fun l k => l.erase k) B = B := by
  induction w with
  | nil => rfl
  | cons k wrest ih =>
    simp only [List.foldl_cons]
    rw [List.erase_of_not_mem (h k (by simp))]
    exact ih (fun k2 hk2 => h k2 (by simp [hk2]))

/-- A successful `bundle_axes` assignment: the fields of the resulting
state, the validation fact, and the freshly planned callable. -/
theorem set_bundle_success (r r1 : Reader) (v : List Axis)
    (h : r.set_bundle_axes v = (r1, none)) :
    r1._bundle_axes = v ∧ r1._sizes = r._sizes ∧ r1.methods = r.methods ∧
    r1._default_coords = r._default_coords ∧
    (∀ k ∈ v, (r._sizes.lookup k).isSome) ∧
    r1._get_frame_wrapped = _make_get_frame v r.methods r.sizeOfAx := by
  unfold Reader.set_bundle_axes at h
  dsimp only at h
  split at h
  · exact absurd (congrArg Prod.snd h) (by simp)
  · rename_i hval
    have hreg : ∀ k ∈ v, (r._sizes.lookup k).isSome := by
      apply lookup_of_invalid_nil
      simpa using hval
    split at h
    · exact absurd (congrArg Prod.snd h) (by simp)
    · split at h
      · rename_i x gf heq
        injection h with h1 h2
        subst h1
        refine ⟨rfl, rfl, rfl, rfl, hreg, ?_⟩
        show some gf = _make_get_frame v r.methods r.sizeOfAx
        exact (show _make_get_frame v r.methods r.sizeOfAx = some gf
          from heq).symm
      · exact absurd (congrArg Prod.snd h) (by simp)

/-- The restriction C1 needs on the follow-up assignments: no
`bundle_axes` write, and `iter_axes` values disjoint from the bundled
axes `v`. -/
def opFrameOK (v : List Axis) : ConfigOp → Prop
  | .setBundle _ => False
  | .setIter w => ∀ a ∈ w, a ∉ v
  | .setDefaults _ => True

theorem applyOp_preserve (v : List Axis) (r : Reader)
    (hb : r._bundle_axes = v) (op : ConfigOp) (hop : opFrameOK v op) :
    ((applyOp r op).1)._bundle_axes = v ∧
    ((applyOp r op).1)._get_frame_wrapped = r._get_frame_wrapped ∧
    ((applyOp r op).1)._sizes = r._sizes ∧
    ((applyOp r op).1).methods = r.methods := by
  cases op with
  | setBundle w => exact absurd hop (by simp [opFrameOK])
  | setIter w =>
    unfold applyOp Reader.set_iter_axes
    dsimp only
    split
    · exact ⟨hb, rfl, rfl, rfl⟩
    · refine ⟨?_, rfl, rfl, rfl⟩
      show w.foldl (fun l k => l.erase k) r._bundle_axes = v
      rw [hb]
      exact foldl_erase_id v w hop
  | setDefaults w =>
    unfold applyOp Reader.set_default_coords
    dsimp only
    split
    · exact ⟨hb, rfl, rfl, rfl⟩
    · exact ⟨hb, rfl, rfl, rfl⟩

theorem applyOps_preserve (v : List Axis) (r : Reader)
    (hb : r._bundle_axes = v) (ops : List ConfigOp)
    (hops : ∀ op ∈ ops, opFrameOK v op) :
    ((applyOps r ops))._bundle_axes = v ∧
    ((applyOps r ops))._get_frame_wrapped = r._get_frame_wrapped ∧
    ((applyOps r ops))._sizes = r._sizes ∧
    ((applyOps r ops)).methods = r.methods := by
  induction ops generalizing r with
  | nil => exact ⟨hb, rfl, rfl, rfl⟩
  | cons op rest ih =>
    unfold applyOps
    simp only [List.foldl_cons]
    obtain ⟨h1, h2, h3, h4⟩ := applyOp_preserve v r hb op (hops op (by simp))
    obtain ⟨g1, g2, g3, g4⟩ := ih ((applyOp r op).1) h1
      (fun o ho => hops o (by simp [ho]))
    exact ⟨g1, g2.trans h2, g3.trans h3, g4.trans h4⟩

/-- **C1** [amended]: for a reader with at least one native method (each
honouring its shape contract, with positive sizes), after a valid
duplicate-free `bundle_axes` assignment and any subsequent sequence of
`iter_axes`/`default_coords` assignments whose `iter_axes` values do not
overlap the bundled axes, every valid index yields a frame whose shape
is `tuple(sizes[a] for a in bundle_axes)`. -/
theorem C1_shape_law_amended (r r1 : Reader) (v : List Axis)
    (ops : List ConfigOp) (i : Nat)
    (hmne : r.methods ≠ [])
    (hmethods : ∀ p ∈ r.methods,
      (∀ ind, (p.2 ind).arr.shape = p.1.map r.sizeOfAx) ∧
      (∀ a ∈ p.1, 0 < r.sizeOfAx a))
    (hposv : ∀ a ∈ v, 0 < r.sizeOfAx a)
    (hstep : r.set_bundle_axes v = (r1, none))
    (hops : ∀ op ∈ ops, opFrameOK v op)
    (hi : i < (applyOps r1 ops).len) :
    ∃ fr tr, (applyOps r1 ops).get_frame i =
        ((applyOps r1 ops), Except.ok (fr, tr)) ∧
      fr.arr.shape =
        (applyOps r1 ops)._bundle_axes.map (applyOps r1 ops).sizeOfAx ∧
      (applyOps r1 ops)._bundle_axes = v := by
  obtain ⟨hb1, hsz1, hm1, hd1, hreg, hw1⟩ := set_bundle_success r r1 v hstep
  obtain ⟨hb2, hw2, hsz2, hm2⟩ := applyOps_preserve v r1 hb1 ops hops
  have hsizeeq : (applyOps r1 ops).sizeOfAx = r.sizeOfAx := by
    funext a
    unfold Reader.sizeOfAx
    rw [hsz2, hsz1]
  obtain ⟨gf, hgf, hshape⟩ := make_shape v r.methods r.sizeOfAx hmne
    (fun p hp => (hmethods p hp).1) (fun p hp => (hmethods p hp).2) hposv
  have hw : (applyOps r1 ops)._get_frame_wrapped = some gf := by
    rw [hw2, hw1, hgf]
  unfold Reader.get_frame
  rw [if_neg (by omega : ¬ i > (applyOps r1 ops).len)]
  rw [hw]
  refine ⟨_, _, rfl, ?_, hb2⟩
  show ((gf (overrideC (applyOps r1 ops).defaultCoordsFn
      (applyOps r1 ops)._iter_axes
      (iterDigits (applyOps r1 ops).iterSizes i))).1).arr.shape =
    (applyOps r1 ops)._bundle_axes.map (applyOps r1 ops).sizeOfAx
  rw [hshape, hb2, hsizeeq]

/-- Reader for the C1 counterexample: native `('c','y','x')`, sizes
`c=2`, `y=3`, `x=4`, after `bundle_axes = ['c','y','x']` and then
`iter_axes = ['c']` (which silently removes `'c'` from `bundle_axes`
without re-planning). -/
def readerStale : Reader :=
  (((initAxes (Reader.mk0 [(["c", "y", "x"], constNative [2, 3, 4])])
      [("c", 2), ("y", 3), ("x", 4)]).set_bundle_axes
        ["c", "y", "x"]).1.set_iter_axes ["c"]).1

set_option maxHeartbeats 2000000 in
/-- **C1** [counterexample]: after the valid assignments
`bundle_axes = ['c','y','x']` then `iter_axes = ['c']`, the current
`bundle_axes` is `['y','x']` (sizes `(3,4)`), but `get_frame(0)` still
uses the stale synthesized function and returns a `(2,3,4)`-shaped
array: assigning `iter_axes` mutates `bundle_axes` without re-planning. -/
theorem C1_counterexample :
    readerStale._bundle_axes = ["y", "x"] ∧
    readerStale.len = 2 ∧
    (∃ fr tr, readerStale.get_frame 0 = (readerStale, Except.ok (fr, tr)) ∧
      fr.arr.shape = [2, 3, 4]) ∧
    readerStale._bundle_axes.map readerStale.sizeOfAx = [3, 4] ∧
    ([2, 3, 4] : List Nat) ≠ [3, 4] := by
  refine ⟨rfl, rfl, ⟨_, _, rfl, rfl⟩, rfl, by decide⟩

set_option maxHeartbeats 2000000 in
/-- Witness for the amended C1 on the concrete `('y','x')` reader. -/
theorem C1_shape_law_amended_witness :
    ((readerYXT.set_bundle_axes ["y", "x"]).2 = none) ∧
    (0 < (applyOps (readerYXT.set_bundle_axes ["y", "x"]).1
      [ConfigOp.setIter ["t"]]).len) ∧
    (∃ fr tr,
      (applyOps (readerYXT.set_bundle_axes ["y", "x"]).1
        [ConfigOp.setIter ["t"]]).get_frame 0 =
        ((applyOps (readerYXT.set_bundle_axes ["y", "x"]).1
          [ConfigOp.setIter ["t"]]), Except.ok (fr, tr)) ∧
      fr.arr.shape =
        (applyOps (readerYXT.set_bundle_axes ["y", "x"]).1
          [ConfigOp.setIter ["t"]])._bundle_axes.map
          (applyOps (readerYXT.set_bundle_axes ["y", "x"]).1
            [ConfigOp.setIter ["t"]]).sizeOfAx ∧
      (applyOps (readerYXT.set_bundle_axes ["y", "x"]).1
        [ConfigOp.setIter ["t"]])._bundle_axes = ["y", "x"]) := by
  have hstep : readerYXT.set_bundle_axes ["y", "x"] =
      ((readerYXT.set_bundle_axes ["y", "x"]).1, none) := rfl
  have hmne : readerYXT.methods ≠ [] := by
    intro hcon
    exact absurd (congrArg List.length hcon) (by decide)
  have hmethods : ∀ p ∈ readerYXT.methods,
      (∀ ind, (p.2 ind).arr.shape = p.1.map readerYXT.sizeOfAx) ∧
      (∀ a ∈ p.1, 0 < readerYXT.sizeOfAx a) := by
    intro p hp
    have hps : p = (["y", "x"], constNative [2, 3]) := by
      simpa [readerYXT, initAxes, Reader.mk0, methodsYX, Reader.init_axis]
        using hp
    subst hps
    exact ⟨fun ind => rfl, by decide⟩
  have hposv : ∀ a ∈ (["y", "x"] : List Axis), 0 < readerYXT.sizeOfAx a := by
    decide
  have hops : ∀ op ∈ [ConfigOp.setIter ["t"]], opFrameOK ["y", "x"] op := by
    intro op hop
    simp only [List.mem_singleton] at hop
    subst hop
    show ∀ a ∈ (["t"] : List Axis), a ∉ (["y", "x"] : List Axis)
    decide
  have hi : 0 < (applyOps (readerYXT.set_bundle_axes ["y", "x"]).1
      [ConfigOp.setIter ["t"]]).len := by decide
  exact ⟨rfl, hi,
    C1_shape_law_amended readerYXT (readerYXT.set_bundle_axes ["y", "x"]).1
      ["y", "x"] [ConfigOp.setIter ["t"]] 0 hmne hmethods hposv hstep hops hi⟩

end Pims
